import Mathlib

/-!
# aws-cfn-outputs: the output-rendering pipeline of `main.go`

A shallow embedding of `run` and `keys` from `main.go`.

* A Go `string` is a finite sequence of bytes; bytes are natural numbers below 256.
* A Go `map[string]string` is an association list with pairwise distinct keys.  The
  order of the list stands for the (unspecified) order in which `range` enumerates the
  map, so two lists that are permutations of one another are the same map.
* The library functions `run` calls (`sort.Strings`, `encoding/json`, `text/template`,
  with `unicode/utf8` below them) are embedded from the Go standard library; each
  definition names the function it follows.  The cloud service, the template file and
  the sinks are an environment whose answers are given and whose calls are recorded.
-/

namespace CfnOutputs

/-! ## Strings -/

/-- A Go `string`: its bytes, in order. -/
abbrev Str := List Nat

/-- Go's `a < b` on strings: byte-wise lexicographic comparison, a proper prefix being
smaller. -/
def strLess : Str → Str → Bool
  | [], [] => false
  | [], _ :: _ => true
  | _ :: _, [] => false
  | a :: s, b :: t => if a < b then true else if b < a then false else strLess s t

/-- The order `sort.Strings` sorts into: `a` may stand before `b` when `b < a` is false. -/
def strLE (a b : Str) : Prop := strLess b a = false

instance strLE_decidable : DecidableRel strLE := fun a b =>
  inferInstanceAs (Decidable (strLess b a = false))

/-- `sort.Strings(out)`: the slice sorted into ascending order. -/
def sortStrings (out : List Str) : List Str := List.insertionSort strLE out

/-! ## Maps -/

/-- A Go `map[string]string`, as the list of its entries in enumeration order. -/
abbrev OutputMap := List (Str × Str)

namespace OutputMap

/-- The keys of a map are pairwise distinct. -/
def WF (m : OutputMap) : Prop := (m.map Prod.fst).Nodup

instance WF_decidable (m : OutputMap) : Decidable m.WF :=
  inferInstanceAs (Decidable (m.map Prod.fst).Nodup)

/-- The comma-ok lookup `v, ok := m[k]`. -/
def lookup : OutputMap → Str → Option Str
  | [], _ => none
  | (k', v) :: rest, k => if k' = k then some v else lookup rest k

/-- The expression `m[k]`: the zero value `""` for an absent key. -/
def get (m : OutputMap) (k : Str) : Str := (m.lookup k).getD []

/-- The assignment `m[k] = v`: overwrite the entry of `k`, or add one. -/
def set : OutputMap → Str → Str → OutputMap
  | [], k, v => [(k, v)]
  | (k', v') :: rest, k, v => if k' = k then (k', v) :: rest else (k', v') :: set rest k v

end OutputMap

/-! ## Collecting the stack outputs (`main.go`, lines 72-78) -/

/-- One element of `out.Stacks[0].Outputs`: `OutputKey` and `OutputValue` are `*string`,
`none` standing for `nil`. -/
structure OutputPair where
  OutputKey : Option Str
  OutputValue : Option Str
  deriving DecidableEq, Repr

/-- The body of the loop over the outputs. -/
def collectStep (m : OutputMap) (o : OutputPair) : OutputMap :=
  match o.OutputKey, o.OutputValue with
  | some k, some v => m.set k v
  | _, _ => m

/-- The loop over the outputs, started from `make(map[string]string)`. -/
def collect (outputs : List OutputPair) : OutputMap := outputs.foldl collectStep []

/-! ## Rendering -/

/-- The function `keys`: the keys in enumeration order, then `sort.Strings`. -/
def keys (m : OutputMap) : List Str := sortStrings (m.map Prod.fst)

/-- One `fmt.Fprintf(buf, "%s\t%s\n", k, m[k])`. -/
def tabularLine (m : OutputMap) (k : Str) : Str := k ++ [9] ++ m.get k ++ [10]

/-- The `default` branch of the `switch`: one line per key of `keys(m)`. -/
def renderTabular (m : OutputMap) : Str := (keys m).foldl (fun buf k => buf ++ tabularLine m k) []

/-! ## Library: `unicode/utf8`

`encoding/json` decides how to write a string by decoding it as UTF-8.  The functions below
follow `unicode/utf8` of the Go standard library. -/

/-- The constant `utf8.RuneError`, U+FFFD. -/
def RuneError : Nat := 0xFFFD

/-- The constant `utf8.RuneSelf`: bytes below it are single-byte runes. -/
def RuneSelf : Nat := 0x80

/-- The constant `utf8.UTFMax`. -/
def UTFMax : Nat := 4

/-- The table `first` of `unicode/utf8`: information about the first byte of an encoding.
`0xF0` is ASCII, `0xF1` is invalid; otherwise the low three bits are the size and the high
four bits index `acceptRanges`. -/
def first (b : Nat) : Nat :=
  if b < 0x80 then 0xF0
  else if b < 0xC2 then 0xF1
  else if b < 0xE0 then 0x02
  else if b = 0xE0 then 0x13
  else if b < 0xED then 0x03
  else if b = 0xED then 0x23
  else if b < 0xF0 then 0x03
  else if b = 0xF0 then 0x34
  else if b < 0xF4 then 0x04
  else if b = 0xF4 then 0x44
  else 0xF1

/-- The table `acceptRanges` of `unicode/utf8`: the range `(lo, hi)` of valid second
bytes. -/
def acceptRanges (i : Nat) : Nat × Nat :=
  match i with
  | 0 => (0x80, 0xBF)
  | 1 => (0xA0, 0xBF)
  | 2 => (0x80, 0x9F)
  | 3 => (0x90, 0xBF)
  | 4 => (0x80, 0x8F)
  | _ => (0, 0)

/-- The function `utf8.DecodeRuneInString`: the first rune of `s` and its width in bytes;
`(RuneError, 1)` for an invalid encoding, `(RuneError, 0)` for the empty string.  The
masks and shifts are written as arithmetic: `s0&mask2` is `s0 % 32`, `s1&maskx` is
`s1 % 64`, `<<6` is `* 64`, and `|` of disjoint bit ranges is `+`; `x&7` is `x % 8` and
`x>>4` is `x / 16`. -/
def DecodeRuneInString (s : Str) : Nat × Nat :=
  match s with
  | [] => (RuneError, 0)
  | s0 :: t0 =>
    let x := first s0
    if x ≥ 0xF0 then
      (if x = 0xF0 then s0 else RuneError, 1)
    else
      let sz := x % 8
      let accept := acceptRanges (x / 16)
      if s.length < sz then (RuneError, 1)
      else
        match t0 with
        | [] => (RuneError, 1)
        | s1 :: t1 =>
          if s1 < accept.1 ∨ accept.2 < s1 then (RuneError, 1)
          else if sz ≤ 2 then ((s0 % 32) * 64 + s1 % 64, 2)
          else
            match t1 with
            | [] => (RuneError, 1)
            | s2 :: t2 =>
              if s2 < 0x80 ∨ 0xBF < s2 then (RuneError, 1)
              else if sz ≤ 3 then ((s0 % 16) * 4096 + (s1 % 64) * 64 + s2 % 64, 3)
              else
                match t2 with
                | [] => (RuneError, 1)
                | s3 :: _ =>
                  if s3 < 0x80 ∨ 0xBF < s3 then (RuneError, 1)
                  else ((s0 % 8) * 262144 + (s1 % 64) * 4096 + (s2 % 64) * 64 + s3 % 64, 4)

/-- The loop of `utf8.ValidString`: every rune decodes, none as `(RuneError, 1)`.  The
first argument bounds the number of iterations; `s.length` is enough. -/
def validLoop : Nat → Str → Bool
  | 0, s => s.isEmpty
  | _ + 1, [] => true
  | n + 1, b :: rest =>
    let r := DecodeRuneInString (b :: rest)
    if r.1 = RuneError ∧ r.2 = 1 then false
    else validLoop n ((b :: rest).drop r.2)

/-- The function `utf8.ValidString`. -/
def ValidString (s : Str) : Bool := validLoop s.length s

/-! ## Library: `encoding/json`, writing a string -/

/-- The constant `hex` of `encoding/json`, indexed: `"0123456789abcdef"[n]`. -/
def hex (n : Nat) : Nat :=
  [48, 49, 50, 51, 52, 53, 54, 55, 56, 57, 97, 98, 99, 100, 101, 102].getD n 0

/-- The table `htmlSafeSet` of `encoding/json`: the ASCII bytes written without escaping
when HTML escaping is on (the default of `json.NewEncoder`): the bytes from space to
`0x7f` other than `"`, `&`, `<`, `>` and `\`. -/
def htmlSafeSet (b : Nat) : Bool :=
  decide (0x20 ≤ b) && decide (b < 0x80) &&
    !(b == 34 || b == 38 || b == 60 || b == 62 || b == 92)

/-- The `switch b` of `appendString` for an ASCII byte outside `htmlSafeSet`; `b>>4` is
`b / 16` and `b&0xF` is `b % 16`.  (Releases of Go before 1.22 have no case for `\b` and
`\f` and write these two bytes as `\u0008` and `\u000c`.) -/
def escapeByte (b : Nat) : Str :=
  if b = 92 ∨ b = 34 then [92, b]        -- '\\', '"'
  else if b = 8 then [92, 98]            -- \b
  else if b = 12 then [92, 102]          -- \f
  else if b = 10 then [92, 110]          -- \n
  else if b = 13 then [92, 114]          -- \r
  else if b = 9 then [92, 116]           -- \t
  else [92, 117, 48, 48, hex (b / 16), hex (b % 16)]   -- \u00XX

/-- The loop of `appendString` over `src[i:]`, returning the bytes it appends between the
two quotes.  Copying `src[start:i]` in one piece is the same as copying each byte as it
is passed.  The first argument bounds the number of iterations; `src.length` is
enough. -/
def appendStringLoop : Nat → Str → Str
  | 0, _ => []
  | _ + 1, [] => []
  | n + 1, b :: rest =>
    if b < RuneSelf then
      if htmlSafeSet b then b :: appendStringLoop n rest
      else escapeByte b ++ appendStringLoop n rest
    else
      let r := DecodeRuneInString ((b :: rest).take UTFMax)
      if r.1 = RuneError ∧ r.2 = 1 then
        [92, 117, 102, 102, 102, 100] ++ appendStringLoop n rest      -- the escape \ufffd
      else if r.1 = 0x2028 ∨ r.1 = 0x2029 then
        [92, 117, 50, 48, 50, hex (r.1 % 16)] ++ appendStringLoop n ((b :: rest).drop r.2)
      else
        (b :: rest).take r.2 ++ appendStringLoop n ((b :: rest).drop r.2)

/-- The function `appendString(dst, src, escapeHTML)` with `escapeHTML` true. -/
def appendString (dst src : Str) : Str :=
  dst ++ [34] ++ appendStringLoop src.length src ++ [34]

/-- The entries as `mapEncoder.encode` orders them: `slices.SortFunc` by key. -/
def sortedEntries (m : OutputMap) : List (Str × Str) :=
  List.insertionSort (fun p q => strLE p.1 q.1) m

/-- The loop of `mapEncoder.encode` over the sorted entries, from index `i`. -/
def encodeEntries : Bool → List (Str × Str) → Str → Str
  | _, [], e => e
  | isFirst, (k, v) :: sv, e =>
    let e1 := if isFirst then e else e ++ [44]      -- ','
    let e2 := appendString e1 k
    let e3 := e2 ++ [58]                            -- ':'
    encodeEntries false sv (appendString e3 v)

/-- The function `mapEncoder.encode` for a non-nil `map[string]string`, followed by the
newline with which `Encoder.Encode` ends each value. -/
def marshalMap (m : OutputMap) : Str :=
  encodeEntries true (sortedEntries m) [123] ++ [125] ++ [10]

/-! ## Library: `encoding/json`, the scanner and `appendIndent`

`Encoder.Encode` with `SetIndent` first writes the compact encoding and then re-reads it
with the package's JSON scanner to insert newlines and indentation. -/

/-- The result codes of a scanner step (`scanContinue` ... `scanError`). -/
inductive Scan
  | scanContinue | scanBeginLiteral | scanBeginObject | scanObjectKey | scanObjectValue
  | scanEndObject | scanBeginArray | scanArrayValue | scanEndArray | scanSkipSpace
  | scanEnd | scanError
  deriving DecidableEq, Repr

/-- The entries of `scanner.parseState`. -/
inductive ParseState
  | parseObjectKey | parseObjectValue | parseArrayValue
  deriving DecidableEq, Repr

/-- The step functions a scanner can be in (the values of `scanner.step`). -/
inductive Step
  | stateBeginValueOrEmpty | stateBeginValue | stateBeginStringOrEmpty | stateBeginString
  | stateEndValue | stateEndTop | stateInString | stateInStringEsc | stateInStringEscU
  | stateInStringEscU1 | stateInStringEscU12 | stateInStringEscU123
  | stateNeg | state1 | state0 | stateDot | stateDot0 | stateE | stateESign | stateE0
  | stateT | stateTr | stateTru | stateF | stateFa | stateFal | stateFals
  | stateN | stateNu | stateNul | stateError
  deriving DecidableEq, Repr

/-- The type `scanner`.  `parseState` is a stack whose top is the head of the list;
`err` records whether `scanner.err` is set. -/
structure Scanner where
  step : Step
  endTop : Bool
  parseState : List ParseState
  err : Bool
  deriving DecidableEq, Repr

/-- The constant `maxNestingDepth`. -/
def maxNestingDepth : Nat := 10000

namespace Scanner

/-- The state after `scanner.reset`. -/
def reset : Scanner := ⟨Step.stateBeginValue, false, [], false⟩

/-- The method `scanner.error`. -/
def error (s : Scanner) : Scanner × Scan :=
  ({ s with step := Step.stateError, err := true }, Scan.scanError)

/-- The method `scanner.pushParseState`. -/
def pushParseState (s : Scanner) (newParseState : ParseState) (successState : Scan) :
    Scanner × Scan :=
  let s1 := { s with parseState := newParseState :: s.parseState }
  if s1.parseState.length ≤ maxNestingDepth then (s1, successState) else error s1

/-- The method `scanner.popParseState`. -/
def popParseState (s : Scanner) : Scanner :=
  let ps := s.parseState.tail
  if ps.length = 0 then { s with parseState := ps, step := Step.stateEndTop, endTop := true }
  else { s with parseState := ps, step := Step.stateEndValue }

/-- The function `isSpace`. -/
def isSpace (c : Nat) : Bool := c == 32 || c == 9 || c == 13 || c == 10

/-- Whether `c` is a decimal digit, `'0' <= c && c <= '9'`. -/
def isDigit (c : Nat) : Bool := decide (48 ≤ c) && decide (c ≤ 57)

/-- The test of the `stateInStringEscU` family: a hexadecimal digit of either case. -/
def isHexDigit (c : Nat) : Bool :=
  isDigit c || (decide (97 ≤ c) && decide (c ≤ 102)) || (decide (65 ≤ c) && decide (c ≤ 70))

/-- The function `stateEndTop`. -/
def stateEndTop (s : Scanner) (c : Nat) : Scanner × Scan :=
  if !isSpace c then ((error s).1, Scan.scanEnd) else (s, Scan.scanEnd)

/-- The function `stateEndValue`. -/
def stateEndValue (s : Scanner) (c : Nat) : Scanner × Scan :=
  match s.parseState with
  | [] => stateEndTop { s with step := Step.stateEndTop, endTop := true } c
  | ps :: below =>
    if isSpace c then ({ s with step := Step.stateEndValue }, Scan.scanSkipSpace)
    else
      match ps with
      | ParseState.parseObjectKey =>
        if c = 58 then          -- ':'
          ({ s with parseState := ParseState.parseObjectValue :: below,
                    step := Step.stateBeginValue }, Scan.scanObjectKey)
        else error s
      | ParseState.parseObjectValue =>
        if c = 44 then          -- ','
          ({ s with parseState := ParseState.parseObjectKey :: below,
                    step := Step.stateBeginString }, Scan.scanObjectValue)
        else if c = 125 then    -- '}'
          (popParseState s, Scan.scanEndObject)
        else error s
      | ParseState.parseArrayValue =>
        if c = 44 then
          ({ s with step := Step.stateBeginValue }, Scan.scanArrayValue)
        else if c = 93 then     -- ']'
          (popParseState s, Scan.scanEndArray)
        else error s

/-- The function `stateBeginValue`. -/
def stateBeginValue (s : Scanner) (c : Nat) : Scanner × Scan :=
  if isSpace c then (s, Scan.scanSkipSpace)
  else if c = 123 then          -- '{'
    pushParseState { s with step := Step.stateBeginStringOrEmpty }
      ParseState.parseObjectKey Scan.scanBeginObject
  else if c = 91 then           -- '['
    pushParseState { s with step := Step.stateBeginValueOrEmpty }
      ParseState.parseArrayValue Scan.scanBeginArray
  else if c = 34 then ({ s with step := Step.stateInString }, Scan.scanBeginLiteral)
  else if c = 45 then ({ s with step := Step.stateNeg }, Scan.scanBeginLiteral)
  else if c = 48 then ({ s with step := Step.state0 }, Scan.scanBeginLiteral)
  else if c = 116 then ({ s with step := Step.stateT }, Scan.scanBeginLiteral)
  else if c = 102 then ({ s with step := Step.stateF }, Scan.scanBeginLiteral)
  else if c = 110 then ({ s with step := Step.stateN }, Scan.scanBeginLiteral)
  else if 49 ≤ c ∧ c ≤ 57 then ({ s with step := Step.state1 }, Scan.scanBeginLiteral)
  else error s

/-- The function `stateBeginValueOrEmpty`. -/
def stateBeginValueOrEmpty (s : Scanner) (c : Nat) : Scanner × Scan :=
  if isSpace c then (s, Scan.scanSkipSpace)
  else if c = 93 then stateEndValue s c
  else stateBeginValue s c

/-- The function `stateBeginString`. -/
def stateBeginString (s : Scanner) (c : Nat) : Scanner × Scan :=
  if isSpace c then (s, Scan.scanSkipSpace)
  else if c = 34 then ({ s with step := Step.stateInString }, Scan.scanBeginLiteral)
  else error s

/-- The function `stateBeginStringOrEmpty`. -/
def stateBeginStringOrEmpty (s : Scanner) (c : Nat) : Scanner × Scan :=
  if isSpace c then (s, Scan.scanSkipSpace)
  else if c = 125 then
    stateEndValue { s with parseState := ParseState.parseObjectValue :: s.parseState.tail } c
  else stateBeginString s c

/-- The function `stateInString`. -/
def stateInString (s : Scanner) (c : Nat) : Scanner × Scan :=
  if c = 34 then ({ s with step := Step.stateEndValue }, Scan.scanContinue)
  else if c = 92 then ({ s with step := Step.stateInStringEsc }, Scan.scanContinue)
  else if c < 0x20 then error s
  else (s, Scan.scanContinue)

/-- The function `stateInStringEsc`. -/
def stateInStringEsc (s : Scanner) (c : Nat) : Scanner × Scan :=
  if c = 98 ∨ c = 102 ∨ c = 110 ∨ c = 114 ∨ c = 116 ∨ c = 92 ∨ c = 47 ∨ c = 34 then
    ({ s with step := Step.stateInString }, Scan.scanContinue)
  else if c = 117 then ({ s with step := Step.stateInStringEscU }, Scan.scanContinue)
  else error s

/-- The functions `stateInStringEscU`, `stateInStringEscU1`, `stateInStringEscU12` and
`stateInStringEscU123`, which differ in the state they move to. -/
def stateInStringEscHex (next : Step) (s : Scanner) (c : Nat) : Scanner × Scan :=
  if isHexDigit c then ({ s with step := next }, Scan.scanContinue) else error s

/-- The function `state0`. -/
def state0 (s : Scanner) (c : Nat) : Scanner × Scan :=
  if c = 46 then ({ s with step := Step.stateDot }, Scan.scanContinue)
  else if c = 101 ∨ c = 69 then ({ s with step := Step.stateE }, Scan.scanContinue)
  else stateEndValue s c

/-- The function `state1`. -/
def state1 (s : Scanner) (c : Nat) : Scanner × Scan :=
  if isDigit c then ({ s with step := Step.state1 }, Scan.scanContinue) else state0 s c

/-- The function `stateNeg`. -/
def stateNeg (s : Scanner) (c : Nat) : Scanner × Scan :=
  if c = 48 then ({ s with step := Step.state0 }, Scan.scanContinue)
  else if 49 ≤ c ∧ c ≤ 57 then ({ s with step := Step.state1 }, Scan.scanContinue)
  else error s

/-- The function `stateDot`. -/
def stateDot (s : Scanner) (c : Nat) : Scanner × Scan :=
  if isDigit c then ({ s with step := Step.stateDot0 }, Scan.scanContinue) else error s

/-- The function `stateDot0`. -/
def stateDot0 (s : Scanner) (c : Nat) : Scanner × Scan :=
  if isDigit c then (s, Scan.scanContinue)
  else if c = 101 ∨ c = 69 then ({ s with step := Step.stateE }, Scan.scanContinue)
  else stateEndValue s c

/-- The function `stateESign`. -/
def stateESign (s : Scanner) (c : Nat) : Scanner × Scan :=
  if isDigit c then ({ s with step := Step.stateE0 }, Scan.scanContinue) else error s

/-- The function `stateE`. -/
def stateE (s : Scanner) (c : Nat) : Scanner × Scan :=
  if c = 43 ∨ c = 45 then ({ s with step := Step.stateESign }, Scan.scanContinue)
  else stateESign s c

/-- The function `stateE0`. -/
def stateE0 (s : Scanner) (c : Nat) : Scanner × Scan :=
  if isDigit c then (s, Scan.scanContinue) else stateEndValue s c

/-- The functions `stateT`, `stateTr`, `stateF`, `stateFa`, `stateFal`, `stateN` and
`stateNu`: inside `true`, `false` or `null`, expecting the byte `want`. -/
def stateLiteral (want : Nat) (next : Step) (s : Scanner) (c : Nat) : Scanner × Scan :=
  if c = want then ({ s with step := next }, Scan.scanContinue) else error s

/-- One call `scan.step(scan, c)`: the function `s.step` stands for, applied. -/
def run (s : Scanner) (c : Nat) : Scanner × Scan :=
  match s.step with
  | Step.stateBeginValueOrEmpty => stateBeginValueOrEmpty s c
  | Step.stateBeginValue => stateBeginValue s c
  | Step.stateBeginStringOrEmpty => stateBeginStringOrEmpty s c
  | Step.stateBeginString => stateBeginString s c
  | Step.stateEndValue => stateEndValue s c
  | Step.stateEndTop => stateEndTop s c
  | Step.stateInString => stateInString s c
  | Step.stateInStringEsc => stateInStringEsc s c
  | Step.stateInStringEscU => stateInStringEscHex Step.stateInStringEscU1 s c
  | Step.stateInStringEscU1 => stateInStringEscHex Step.stateInStringEscU12 s c
  | Step.stateInStringEscU12 => stateInStringEscHex Step.stateInStringEscU123 s c
  | Step.stateInStringEscU123 => stateInStringEscHex Step.stateInString s c
  | Step.stateNeg => stateNeg s c
  | Step.state1 => state1 s c
  | Step.state0 => state0 s c
  | Step.stateDot => stateDot s c
  | Step.stateDot0 => stateDot0 s c
  | Step.stateE => stateE s c
  | Step.stateESign => stateESign s c
  | Step.stateE0 => stateE0 s c
  | Step.stateT => stateLiteral 114 Step.stateTr s c
  | Step.stateTr => stateLiteral 117 Step.stateTru s c
  | Step.stateTru => stateLiteral 101 Step.stateEndValue s c
  | Step.stateF => stateLiteral 97 Step.stateFa s c
  | Step.stateFa => stateLiteral 108 Step.stateFal s c
  | Step.stateFal => stateLiteral 115 Step.stateFals s c
  | Step.stateFals => stateLiteral 101 Step.stateEndValue s c
  | Step.stateN => stateLiteral 117 Step.stateNu s c
  | Step.stateNu => stateLiteral 108 Step.stateNul s c
  | Step.stateNul => stateLiteral 108 Step.stateEndValue s c
  | Step.stateError => (s, Scan.scanError)

/-- The method `scanner.eof`: whether the input ended where a value is complete. -/
def eof (s : Scanner) : Scan :=
  if s.err then Scan.scanError
  else if s.endTop then Scan.scanEnd
  else if (run s 32).1.endTop then Scan.scanEnd
  else Scan.scanError

end Scanner

/-- The function `appendNewline(dst, prefix, indent, depth)`. -/
def appendNewline (dst pfx indent : Str) (depth : Nat) : Str :=
  (List.range depth).foldl (fun d _ => d ++ indent) (dst ++ [10] ++ pfx)

/-- The state of the loop of `appendIndent`. -/
structure IndentState where
  scan : Scanner
  needIndent : Bool
  depth : Nat
  dst : Str
  deriving DecidableEq, Repr

/-- The body of the loop of `appendIndent` for one byte `c`; `none` is `break`. -/
def indentStep (pfx indent : Str) (st : IndentState) (c : Nat) : Option IndentState :=
  let r := st.scan.run c
  let scan := r.1
  let v := r.2
  if v = Scan.scanSkipSpace then some { st with scan := scan }
  else if v = Scan.scanError then none
  else
    let fire : Bool := st.needIndent && v != Scan.scanEndObject && v != Scan.scanEndArray
    let needIndent := if fire then false else st.needIndent
    let depth := if fire then st.depth + 1 else st.depth
    let dst := if fire then appendNewline st.dst pfx indent depth else st.dst
    if v = Scan.scanContinue then
      some ⟨scan, needIndent, depth, dst ++ [c]⟩
    else if c = 123 ∨ c = 91 then           -- '{', '['
      some ⟨scan, true, depth, dst ++ [c]⟩
    else if c = 44 then                     -- ','
      some ⟨scan, needIndent, depth, appendNewline (dst ++ [c]) pfx indent depth⟩
    else if c = 58 then                     -- ':'
      some ⟨scan, needIndent, depth, dst ++ [c, 32]⟩
    else if c = 125 ∨ c = 93 then           -- '}', ']'
      if needIndent then some ⟨scan, false, depth, dst ++ [c]⟩
      else some ⟨scan, needIndent, depth - 1, appendNewline dst pfx indent (depth - 1) ++ [c]⟩
    else some ⟨scan, needIndent, depth, dst ++ [c]⟩

/-- The loop `for _, c := range src` of `appendIndent`. -/
def indentLoop (pfx indent : Str) : Str → IndentState → IndentState
  | [], st => st
  | c :: src, st =>
    match indentStep pfx indent st c with
    | none => { st with scan := (st.scan.run c).1 }
    | some st1 => indentLoop pfx indent src st1

/-- The function `appendIndent(dst, src, prefix, indent)` for an empty `dst`: the indented
bytes, or `none` when the scanner reports a syntax error. -/
def appendIndent (src pfx indent : Str) : Option Str :=
  let st := indentLoop pfx indent src ⟨Scanner.reset, false, 0, []⟩
  if st.scan.eof = Scan.scanError then none else some st.dst

/-- The JSON branch of `run`: `json.NewEncoder(buf)`, `enc.SetIndent("", "  ")` and
`enc.Encode(m)`, giving the bytes written to `buf`, or `none` for an error. -/
def renderJSON (m : OutputMap) : Option Str := appendIndent (marshalMap m) [] [32, 32]

/-! ## Library: `text/template`, executing a parsed template

The part of the template language modelled: literal text, the actions `{{.Name}}`,
`{{.Name.Field}}` (a chain of fields), `{{true}}` and `{{false}}`, and
`{{if pipeline}} ... {{else}} ... {{end}}` over the same pipelines.  The data is the
`map[string]string`; the template carries the option `missingkey=error` (`main.go`,
line 58). -/

/-- A pipeline of a single command without arguments: a field of the data, `.Name`; a
chain of two or more fields, `.Name.Next` and so on; or a boolean constant. -/
inductive Pipe
  | field (name : Str)
  | chain (name : Str) (next : Str) (more : List Str)
  | bool (b : Bool)
  deriving DecidableEq, Repr

/-- The nodes of a parsed template (`parse.TextNode`, `parse.ActionNode`,
`parse.IfNode`); a missing `{{else}}` is an empty `elseList`. -/
inductive Node
  | text (s : Str)
  | action (pipe : Pipe)
  | ifNode (pipe : Pipe) (list : List Node) (elseList : List Node)

/-- A parsed template: the node list at the root of its tree. -/
abbrev Template := List Node

/-- The values a pipeline of the modelled part evaluates to. -/
inductive Value
  | str (s : Str)
  | bool (b : Bool)
  deriving DecidableEq, Repr

/-- The errors of template execution.  `missingKey name` is
`map has no entry for key "name"`; `cantEvaluateField name` is
`can't evaluate field name in type string`. -/
inductive ExecError
  | missingKey (name : Str)
  | cantEvaluateField (name : Str)
  deriving DecidableEq, Repr

/-- Evaluation of a pipeline (`state.evalFieldChain` and `state.evalField`, with
`missingkey=error`; `state.evalCommand` on a boolean constant).  The first field of a
chain is looked up in the map; its value is a string, which has no fields, so the next
field of a chain cannot be evaluated. -/
def evalPipeline (m : OutputMap) : Pipe → Except ExecError Value
  | Pipe.field name =>
    match m.lookup name with
    | some v => Except.ok (Value.str v)
    | none => Except.error (ExecError.missingKey name)
  | Pipe.chain name next _ =>
    match m.lookup name with
    | some _ => Except.error (ExecError.cantEvaluateField next)
    | none => Except.error (ExecError.missingKey name)
  | Pipe.bool b => Except.ok (Value.bool b)

/-- The function `printValue`: what `fmt.Fprint` writes for the value. -/
def printValue : Value → Str
  | Value.str s => s
  | Value.bool true => [116, 114, 117, 101]          -- true
  | Value.bool false => [102, 97, 108, 115, 101]     -- false

/-- The function `isTrue`: a string is true when it is not empty. -/
def isTrue : Value → Bool
  | Value.str s => !s.isEmpty
  | Value.bool b => b

mutual
/-- The method `state.walk` for one node, on the buffer written so far.  The result is
the buffer afterwards and the error that stopped execution, if any. -/
def walk (m : OutputMap) : Node → Str → Str × Option ExecError
  | Node.text s, buf => (buf ++ s, none)
  | Node.action pipe, buf =>
    match evalPipeline m pipe with
    | Except.ok val => (buf ++ printValue val, none)
    | Except.error e => (buf, some e)
  | Node.ifNode pipe list elseList, buf =>
    match evalPipeline m pipe with
    | Except.ok val => if isTrue val then walkList m list buf else walkList m elseList buf
    | Except.error e => (buf, some e)
/-- The method `state.walk` for a list node: its nodes in order, stopping at the first
error. -/
def walkList (m : OutputMap) : List Node → Str → Str × Option ExecError
  | [], buf => (buf, none)
  | n :: rest, buf =>
    match walk m n buf with
    | (buf1, none) => walkList m rest buf1
    | (buf1, some e) => (buf1, some e)
end

/-- The method `Template.Execute(buf, m)` on an empty buffer. -/
def Execute (tpl : Template) (m : OutputMap) : Str × Option ExecError := walkList m tpl []

/-! ## The function `run` (`main.go`, lines 45-101) -/

/-- The type `runArgs`. -/
structure runArgs where
  stackName : Str
  tplFile : Str
  outFile : Str
  json : Bool
  deriving DecidableEq, Repr

/-- The errors `run` returns.  Errors of the collaborators carry their message. -/
inductive Err
  | stackNameUnset                 -- "stack name must be set"
  | jsonWithTemplate               -- "-j and -t cannot be set at the same time"
  | parseFiles (msg : Str)         -- from `template.ParseFiles`
  | loadConfig (msg : Str)         -- from `config.LoadDefaultConfig`
  | describeStacks (msg : Str)     -- from `DescribeStacks`
  | stackCount (l : Nat)           -- "got results for %d stacks, want 1"
  | encode                         -- from `enc.Encode`
  | execute (e : ExecError)        -- from `tpl.Execute`
  | sink (msg : Str)               -- from `os.WriteFile` or `os.Stdout.Write`
  deriving DecidableEq, Repr

/-- The calls `run` makes to the outside, in the order it makes them. -/
inductive Event
  | parseFiles (path : Str)
  | loadDefaultConfig
  | describeStacks (stackName : Str)
  | writeFile (path : Str) (data : Str)
  | stdoutWrite (data : Str)
  deriving DecidableEq, Repr

/-- The answers of the collaborators `run` calls: the template file as parsed, the
credentials, the stacks the service describes (each as its list of outputs), and the
sinks (`none` is a `nil` error). -/
structure Env where
  parseFiles : Str → Except Str Template
  loadDefaultConfig : Option Str
  describeStacks : Str → Except Str (List (List OutputPair))
  writeFile : Str → Str → Option Str
  stdoutWrite : Str → Option Str

/-- The `switch` of `run` (lines 79-95) on a fresh buffer: the contents of `buf`
afterwards, and the error with which the branch returns, if any. -/
def render (json : Bool) (tpl : Option Template) (m : OutputMap) : Str × Option Err :=
  if json then
    match renderJSON m with
    | some b => (b, none)
    | none => ([], some Err.encode)
  else
    match tpl with
    | some t =>
      match Execute t m with
      | (b, none) => (b, none)
      | (b, some e) => (b, some (Err.execute e))
    | none => (renderTabular m, none)

/-- Lines 96-100 of `run`: hand the buffer to the output file or to standard output. -/
def writeOut (env : Env) (args : runArgs) (buf : Str) : Option Err × List Event :=
  if args.outFile ≠ [] then
    ((env.writeFile args.outFile buf).map Err.sink, [Event.writeFile args.outFile buf])
  else
    ((env.stdoutWrite buf).map Err.sink, [Event.stdoutWrite buf])

/-- Lines 60-101 of `run`, after the arguments are checked and the template is parsed. -/
def runRemote (env : Env) (args : runArgs) (tpl : Option Template) :
    Option Err × List Event :=
  match env.loadDefaultConfig with
  | some e => (some (Err.loadConfig e), [Event.loadDefaultConfig])
  | none =>
    match env.describeStacks args.stackName with
    | Except.error e =>
      (some (Err.describeStacks e), [Event.loadDefaultConfig, Event.describeStacks args.stackName])
    | Except.ok stackList =>
      let called := [Event.loadDefaultConfig, Event.describeStacks args.stackName]
      match stackList with
      | [outputs] =>
        let m := collect outputs
        match render args.json tpl m with
        | (_, some e) => (some e, called)
        | (buf, none) =>
          let w := writeOut env args buf
          (w.1, called ++ w.2)
      | _ => (some (Err.stackCount stackList.length), called)

/-- The function `run`: the error it returns (`none` for `nil`) and the calls it made to
the outside. -/
def run (env : Env) (args : runArgs) : Option Err × List Event :=
  if args.stackName = [] then (some Err.stackNameUnset, [])
  else if args.tplFile ≠ [] then
    if args.json then (some Err.jsonWithTemplate, [])
    else
      match env.parseFiles args.tplFile with
      | Except.error e => (some (Err.parseFiles e), [Event.parseFiles args.tplFile])
      | Except.ok tpl =>
        let r := runRemote env args (some tpl)
        (r.1, Event.parseFiles args.tplFile :: r.2)
  else runRemote env args none

/-! ## Helpers for stating the properties -/

/-- The bytes of an ASCII literal. -/
def ascii (s : String) : Str := s.data.map Char.toNat

/-- Whether both fields of a pair are present. -/
def OutputPair.complete (o : OutputPair) : Bool := o.OutputKey.isSome && o.OutputValue.isSome

/-- The data handed to a sink by each write of a trace, in order. -/
def writes : List Event → List Str
  | [] => []
  | Event.writeFile _ data :: rest => data :: writes rest
  | Event.stdoutWrite data :: rest => data :: writes rest
  | _ :: rest => writes rest

/-- The run reaches the `switch` with the template `tpl` and the outputs `outputs`: the
arguments pass the checks, the template file (if any) parses to `tpl`, the credentials
load and the service describes exactly one stack. -/
def reachesRender (env : Env) (args : runArgs) (tpl : Option Template)
    (outputs : List OutputPair) : Prop :=
  args.stackName ≠ [] ∧
  ((args.tplFile = [] ∧ tpl = none) ∨
    (args.tplFile ≠ [] ∧ args.json = false ∧
      ∃ t, env.parseFiles args.tplFile = Except.ok t ∧ tpl = some t)) ∧
  env.loadDefaultConfig = none ∧
  env.describeStacks args.stackName = Except.ok [outputs]

/-- An environment for examples: the template file holds `{{.B}}`, the credentials
load, the service describes one stack with the single output `A` = `1`, and both sinks
accept what they are given. -/
def exampleEnv : Env where
  parseFiles := fun _ => Except.ok [Node.action (Pipe.field (ascii "B"))]
  loadDefaultConfig := none
  describeStacks := fun _ => Except.ok [[⟨some (ascii "A"), some (ascii "1")⟩]]
  writeFile := fun _ _ => none
  stdoutWrite := fun _ => none

/-- The key a pipeline looks up in the map, if any. -/
def Pipe.refs : Pipe → List Str
  | Pipe.field name => [name]
  | Pipe.chain name _ _ => [name]
  | Pipe.bool _ => []

mutual
/-- The keys a node refers to anywhere in its text, executed or not. -/
def Node.refs : Node → List Str
  | Node.text _ => []
  | Node.action pipe => pipe.refs
  | Node.ifNode pipe list elseList => pipe.refs ++ refsList list ++ refsList elseList
/-- The keys a template refers to anywhere in its text. -/
def refsList : List Node → List Str
  | [] => []
  | n :: rest => n.refs ++ refsList rest
end

/-- The truth value of a pipeline as the condition of an `if`: a present key is true
when its value is not empty; `none` when the pipeline cannot be evaluated (its key is
absent, or it is a chain of fields). -/
def Pipe.truth (m : OutputMap) : Pipe → Option Bool
  | Pipe.field name => (m.lookup name).map fun v => !v.isEmpty
  | Pipe.chain _ _ _ => none
  | Pipe.bool b => some b

mutual
/-- The keys whose references the execution of a node evaluates, in order, and whether
execution goes on after the node.  Text evaluates nothing; an action evaluates its
pipeline; an `if` evaluates its condition and then the branch the condition selects, and
nothing of the other branch; a pipeline that cannot be evaluated ends execution. -/
def Node.evaluated (m : OutputMap) : Node → List Str × Bool
  | Node.text _ => ([], true)
  | Node.action pipe => (pipe.refs, (pipe.truth m).isSome)
  | Node.ifNode pipe list elseList =>
    match pipe.truth m with
    | some true => (pipe.refs ++ (evaluatedList m list).1, (evaluatedList m list).2)
    | some false => (pipe.refs ++ (evaluatedList m elseList).1, (evaluatedList m elseList).2)
    | none => (pipe.refs, false)
/-- The keys whose references the execution of a template evaluates, in order, and
whether execution reaches the end of the template. -/
def evaluatedList (m : OutputMap) : List Node → List Str × Bool
  | [] => ([], true)
  | n :: rest =>
    if (n.evaluated m).2 then
      ((n.evaluated m).1 ++ (evaluatedList m rest).1, (evaluatedList m rest).2)
    else ((n.evaluated m).1, false)
end

/-- What the evaluated keys of a node or template say about its execution: when
execution goes on, there was no error and every evaluated key is present; when it does
not, there was an error, which is the missing-key error of an evaluated key exactly when
that key is absent. -/
def Agrees (m : OutputMap) (ev : List Str × Bool) (err : Option ExecError) : Prop :=
  (ev.2 = true → err = none ∧ ∀ k ∈ ev.1, m.lookup k ≠ none) ∧
  (ev.2 = false → ∃ e, err = some e ∧
    (∀ k ∈ ev.1, m.lookup k = none → e = ExecError.missingKey k) ∧
    (∀ k, e = ExecError.missingKey k → k ∈ ev.1 ∧ m.lookup k = none))

/-- The JSON text of a string: `appendString` on an empty destination. -/
def quote (s : Str) : Str := appendString [] s

/-- One member of the indented object: two spaces, the key, a colon and a space, the
value of the key. -/
def jsonMember (m : OutputMap) (k : Str) : Str :=
  [32, 32] ++ quote k ++ [58, 32] ++ quote (m.get k)

/-- The indented object with one member for each key of `ks`, in that order: `{}` and a
newline when there is none; otherwise `{`, the members on lines of their own, separated
by commas, `}` and a newline. -/
def jsonText (m : OutputMap) (ks : List Str) : Str :=
  match ks with
  | [] => [123, 125, 10]
  | _ :: _ => [123, 10] ++ List.intercalate [44, 10] (ks.map (jsonMember m)) ++ [10, 125, 10]

/-! ## A reference reader for JSON (RFC 8259)

Used only to state what the JSON output denotes: a reader for an object whose member
values are strings, with insignificant whitespace between the tokens.  It follows the
grammar of RFC 8259; a repeated member name keeps its last value. -/

/-- The value of a hexadecimal digit. -/
def hexVal (c : Nat) : Option Nat :=
  if 48 ≤ c ∧ c ≤ 57 then some (c - 48)
  else if 97 ≤ c ∧ c ≤ 102 then some (c - 87)
  else if 65 ≤ c ∧ c ≤ 70 then some (c - 55)
  else none

/-- The value of four hexadecimal digits. -/
def hex4 (a b c d : Nat) : Option Nat :=
  match hexVal a, hexVal b, hexVal c, hexVal d with
  | some x, some y, some z, some w => some (((x * 16 + y) * 16 + z) * 16 + w)
  | _, _, _, _ => none

/-- The UTF-8 encoding of a code point (RFC 3629). -/
def utf8Encode (cp : Nat) : Str :=
  if cp < 0x80 then [cp]
  else if cp < 0x800 then [0xC0 + cp / 64, 0x80 + cp % 64]
  else if cp < 0x10000 then [0xE0 + cp / 4096, 0x80 + cp / 64 % 64, 0x80 + cp % 64]
  else [0xF0 + cp / 262144, 0x80 + cp / 4096 % 64, 0x80 + cp / 64 % 64, 0x80 + cp % 64]

/-- The byte a two-character escape stands for. -/
def unescape (e : Nat) : Option Nat :=
  if e = 34 ∨ e = 92 ∨ e = 47 then some e
  else if e = 98 then some 8
  else if e = 102 then some 12
  else if e = 110 then some 10
  else if e = 114 then some 13
  else if e = 116 then some 9
  else none

/-- Put `pre` in front of the string of a parse result. -/
def prepend (pre : Str) (r : Option (Str × Str)) : Option (Str × Str) :=
  r.map fun p => (pre ++ p.1, p.2)

/-- The bytes owed for a high surrogate that was not followed by a low one: U+FFFD. -/
def unpaired (pending : Option Nat) : Str :=
  match pending with
  | some _ => utf8Encode 0xFFFD
  | none => []

/-- Read a string literal after its opening quote: the string it denotes and the input
after the closing quote.  `pending` is the high surrogate of a `\u` escape just read, if
any: with the low surrogate of the next escape it denotes one code point; a surrogate
without its partner reads as U+FFFD. -/
def parseStringFrom : Option Nat → Str → Option (Str × Str)
  | _, [] => none
  | pending, c :: rest =>
    if c = 34 then some (unpaired pending, rest)
    else if c = 92 then
      match rest with
      | [] => none
      | e :: rest1 =>
        if e = 117 then
          match rest1 with
          | h1 :: h2 :: h3 :: h4 :: rest2 =>
            match hex4 h1 h2 h3 h4 with
            | none => none
            | some cp =>
              if 0xDC00 ≤ cp ∧ cp < 0xE000 then
                match pending with
                | some hi =>
                  prepend (utf8Encode (0x10000 + (hi - 0xD800) * 1024 + (cp - 0xDC00)))
                    (parseStringFrom none rest2)
                | none => prepend (utf8Encode 0xFFFD) (parseStringFrom none rest2)
              else if 0xD800 ≤ cp ∧ cp < 0xDC00 then
                prepend (unpaired pending) (parseStringFrom (some cp) rest2)
              else prepend (unpaired pending ++ utf8Encode cp) (parseStringFrom none rest2)
          | _ => none
        else
          match unescape e with
          | none => none
          | some x => prepend (unpaired pending ++ [x]) (parseStringFrom none rest1)
    else if c < 0x20 then none
    else prepend (unpaired pending ++ [c]) (parseStringFrom none rest)

/-- Read a string literal after its opening quote. -/
def parseString (s : Str) : Option (Str × Str) := parseStringFrom none s

/-- Drop leading whitespace: space, tab, line feed, carriage return. -/
def skipWS : Str → Str
  | [] => []
  | c :: rest => if c = 32 ∨ c = 9 ∨ c = 10 ∨ c = 13 then skipWS rest else c :: rest

/-- Read the members of an object up to and including its closing brace, adding them to
`acc`.  The first argument bounds the number of members; the length of the input is
enough. -/
def parseMembers : Nat → Str → OutputMap → Option (OutputMap × Str)
  | 0, _, _ => none
  | fuel + 1, s, acc =>
    match skipWS s with
    | 34 :: r1 =>
      match parseString r1 with
      | none => none
      | some (k, r2) =>
        match skipWS r2 with
        | 58 :: r3 =>
          match skipWS r3 with
          | 34 :: r4 =>
            match parseString r4 with
            | none => none
            | some (v, r5) =>
              match skipWS r5 with
              | 44 :: r6 => parseMembers fuel r6 (acc.set k v)
              | 125 :: r6 => some (acc.set k v, r6)
              | _ => none
          | _ => none
        | _ => none
    | _ => none

/-- Read a JSON text that is an object with string values, as a map. -/
def parseJSON (s : Str) : Option OutputMap :=
  match skipWS s with
  | 123 :: r =>
    match skipWS r with
    | 125 :: r1 => if skipWS r1 = [] then some [] else none
    | _ =>
      match parseMembers s.length r [] with
      | none => none
      | some (m, r1) => if skipWS r1 = [] then some m else none
  | _ => none

/-- The valid UTF-8 string `encoding/json` writes for `src`: each byte that does not
start a valid encoding is replaced by U+FFFD.  The first argument bounds the number of
iterations, as in `appendStringLoop`. -/
def coerceLoop : Nat → Str → Str
  | 0, _ => []
  | _ + 1, [] => []
  | n + 1, b :: rest =>
    let r := DecodeRuneInString (b :: rest)
    if r.1 = RuneError ∧ r.2 = 1 then [0xEF, 0xBF, 0xBD] ++ coerceLoop n rest
    else (b :: rest).take r.2 ++ coerceLoop n ((b :: rest).drop r.2)

/-- The string a JSON reader gets back for `src`. -/
def coerce (src : Str) : Str := coerceLoop src.length src

/-! ## Helpers for the proofs about `appendIndent` -/

/-- The scanner inside a string literal of an object at the given nesting. -/
def inStr (ps : List ParseState) : Scanner := ⟨Step.stateInString, false, ps, false⟩

/-- A run of bytes that `appendIndent` copies unchanged while the scanner is inside a
string literal, ending inside the literal. -/
def Copied (pfx indent chunk : Str) : Prop :=
  ∀ (ps : List ParseState) (d : Nat) (dst more : Str),
    indentLoop pfx indent (chunk ++ more) ⟨inStr ps, false, d, dst⟩ =
      indentLoop pfx indent more ⟨inStr ps, false, d, dst ++ chunk⟩

/-- The members `mapEncoder.encode` writes for the entries `sv`, commas included. -/
def compactMembers : Bool → List (Str × Str) → Str
  | _, [] => []
  | isFirst, (k, v) :: sv =>
    (if isFirst then [] else [44]) ++ quote k ++ [58] ++ quote v ++ compactMembers false sv

/-- The scanner between the tokens of an object, about to run `step`. -/
def atStep (step : Step) (ps : List ParseState) : Scanner := ⟨step, false, ps, false⟩

/-- The members after the first, as `appendIndent` lays them out. -/
def laterMembers (sv : List (Str × Str)) : Str :=
  (sv.map fun p => [44, 10, 32, 32] ++ quote p.1 ++ [58, 32] ++ quote p.2).flatten

/-- The indented object for the entries `sv`, in that order. -/
def jsonEntries : List (Str × Str) → Str
  | [] => [123, 125, 10]
  | (k, v) :: sv =>
    [123, 10, 32, 32] ++ quote k ++ [58, 32] ++ quote v ++ laterMembers sv ++ [10, 125, 10]

/-- The map a JSON reader builds from the members `sv`, read in order on top of
`acc`. -/
def readBack (sv : List (Str × Str)) (acc : OutputMap) : OutputMap :=
  sv.foldl (fun a p => a.set (coerce p.1) (coerce p.2)) acc

/-! ## Maps, collection and sorting: lemmas -/

namespace OutputMap

theorem lookup_set (m : OutputMap) (k v k' : Str) :
    (m.set k v).lookup k' = if k = k' then some v else m.lookup k' := by
  induction m with
  | nil => simp [set, lookup]
  | cons p rest ih =>
    obtain ⟨a, b⟩ := p
    by_cases h : a = k
    · subst h
      by_cases h' : a = k' <;> simp [set, lookup, h']
    · by_cases h' : a = k'
      · subst h'
        have : ¬ k = a := fun e => h e.symm
        simp [set, lookup, h, this]
      · simp [set, lookup, h, h', ih]

theorem length_set_le (m : OutputMap) (k v : Str) : (m.set k v).length ≤ m.length + 1 := by
  induction m with
  | nil => simp [set]
  | cons p rest ih =>
    obtain ⟨a, b⟩ := p
    by_cases h : a = k <;> simp [set, h]
    omega

theorem keys_set (m : OutputMap) (k v : Str) :
    (m.set k v).map Prod.fst = if k ∈ m.map Prod.fst then m.map Prod.fst else m.map Prod.fst ++ [k] := by
  induction m with
  | nil => simp [set]
  | cons p rest ih =>
    obtain ⟨a, b⟩ := p
    by_cases h : a = k
    · subst h
      simp [set]
    · have h' : ¬ k = a := fun e => h e.symm
      simp only [set, h, if_false, List.map_cons, ih, List.mem_cons, h', false_or]
      split <;> simp

theorem WF_set (m : OutputMap) (k v : Str) (h : m.WF) : (m.set k v).WF := by
  unfold WF at *
  rw [keys_set]
  split
  · exact h
  · rename_i hk
    rw [List.nodup_append]
    refine ⟨h, List.nodup_singleton k, ?_⟩
    intro a ha hb
    simp at hb
    subst hb
    exact hk ha

theorem lookup_eq_some_iff (m : OutputMap) (h : m.WF) (k v : Str) :
    m.lookup k = some v ↔ (k, v) ∈ m := by
  induction m with
  | nil => simp [lookup]
  | cons p rest ih =>
    obtain ⟨a, b⟩ := p
    have hr : WF rest := (List.nodup_cons.mp h).2
    have ha : a ∉ rest.map Prod.fst := (List.nodup_cons.mp h).1
    by_cases e : a = k
    · subst e
      simp only [lookup, if_true, Option.some.injEq, List.mem_cons, Prod.mk.injEq, true_and]
      constructor
      · intro e; exact Or.inl e.symm
      · rintro (e | e)
        · exact e.symm
        · exact absurd (List.mem_map_of_mem Prod.fst e) ha
    · have e' : ¬ k = a := fun x => e x.symm
      simp [lookup, e, e', ih hr]

theorem lookup_isSome_iff (m : OutputMap) (k : Str) :
    (m.lookup k).isSome ↔ k ∈ m.map Prod.fst := by
  induction m with
  | nil => simp [lookup]
  | cons p rest ih =>
    obtain ⟨a, b⟩ := p
    by_cases e : a = k
    · subst e; simp [lookup]
    · have e' : ¬ k = a := fun x => e x.symm
      simp [lookup, e, e', ih]

end OutputMap

theorem collect_snoc (l : List OutputPair) (o : OutputPair) :
    collect (l ++ [o]) = collectStep (collect l) o := by
  simp [collect, List.foldl_append]

theorem collect_WF (l : List OutputPair) : (collect l).WF := by
  induction l using List.reverseRecOn with
  | nil => simp [collect, OutputMap.WF]
  | append_singleton l o ih =>
    rw [collect_snoc]
    unfold collectStep
    split
    · exact OutputMap.WF_set _ _ _ ih
    · exact ih

theorem collectStep_incomplete (m : OutputMap) (o : OutputPair) (h : o.complete = false) :
    collectStep m o = m := by
  obtain ⟨k, v⟩ := o
  cases k <;> cases v <;> simp_all [collectStep, OutputPair.complete]

theorem collectStep_complete (m : OutputMap) (k v : Str) :
    collectStep m ⟨some k, some v⟩ = m.set k v := rfl

theorem foldl_collectStep_filter (l : List OutputPair) (m : OutputMap) :
    l.foldl collectStep m = (l.filter OutputPair.complete).foldl collectStep m := by
  induction l generalizing m with
  | nil => rfl
  | cons o l ih =>
    cases h : o.complete
    · simp [List.filter, h, collectStep_incomplete m o h, ih]
    · simp [List.filter, h, ih]

theorem collect_length_le (l : List OutputPair) :
    (collect l).length ≤ (l.filter OutputPair.complete).length := by
  induction l using List.reverseRecOn with
  | nil => simp [collect]
  | append_singleton l o ih =>
    rw [collect_snoc, List.filter_append, List.length_append]
    cases h : o.complete
    · rw [collectStep_incomplete _ _ h]
      simp [List.filter, h]; exact ih
    · rcases o with ⟨_ | k, _ | v⟩ <;> simp [OutputPair.complete] at h
      rw [collectStep_complete]
      have := OutputMap.length_set_le (collect l) k v
      simp [List.filter, OutputPair.complete]
      omega

theorem collect_lookup_iff (l : List OutputPair) (k v : Str) :
    (collect l).lookup k = some v ↔
      ∃ pre post, l = pre ++ ⟨some k, some v⟩ :: post ∧
        ∀ o ∈ post, o.OutputKey = some k → o.OutputValue = none := by
  induction l using List.reverseRecOn with
  | nil => simp [collect, OutputMap.lookup]
  | append_singleton l o ih =>
    rw [collect_snoc]
    by_cases hk : o.OutputKey = some k ∧ o.OutputValue.isSome
    · obtain ⟨ok, ov⟩ := o
      obtain ⟨h1, h2⟩ := hk
      simp only at h1 h2
      subst h1
      obtain ⟨v', rfl⟩ := Option.isSome_iff_exists.mp h2
      rw [collectStep_complete, OutputMap.lookup_set]
      simp only [if_true, Option.some.injEq]
      constructor
      · rintro rfl
        exact ⟨l, [], rfl, by simp⟩
      · rintro ⟨pre, post, e, hp⟩
        rcases List.eq_nil_or_concat post with rfl | ⟨post', o', rfl⟩
        · have := List.append_inj_right' e (by simp)
          simp at this
          exact this
        · rw [List.concat_eq_append, ← List.cons_append, ← List.append_assoc] at e
          have := List.append_inj_right' e (by simp)
          simp at this
          subst this
          have := hp ⟨some k, some v'⟩ (by simp) rfl
          simp at this
    · have hstep : (collectStep (collect l) o).lookup k = (collect l).lookup k := by
        obtain ⟨ok, ov⟩ := o
        cases ok with
        | none => rfl
        | some k' =>
          cases ov with
          | none => rfl
          | some v' =>
            rw [collectStep_complete, OutputMap.lookup_set]
            have : ¬ k' = k := by
              intro e; subst e; exact hk ⟨rfl, rfl⟩
            simp [this]
      rw [hstep, ih]
      constructor
      · rintro ⟨pre, post, rfl, hp⟩
        refine ⟨pre, post ++ [o], by simp, ?_⟩
        intro o' ho' hk'
        rcases List.mem_append.mp ho' with h | h
        · exact hp o' h hk'
        · simp at h; subst h
          cases hv : o'.OutputValue with
          | none => rfl
          | some v' => exact absurd ⟨hk', by simp [hv]⟩ hk
      · rintro ⟨pre, post, e, hp⟩
        rcases List.eq_nil_or_concat post with rfl | ⟨post', o', rfl⟩
        · have := List.append_inj_right' e (by simp)
          simp at this
          subst this
          exact absurd ⟨rfl, rfl⟩ hk
        · rw [List.concat_eq_append, ← List.cons_append, ← List.append_assoc] at e
          have h2 := List.append_inj_right' e (by simp)
          have h1 := List.append_inj_left' e (by simp)
          simp at h2
          subst h2
          refine ⟨pre, post', h1, ?_⟩
          intro o' ho'
          exact hp o' (by simp [ho'])

/-! ### The order on strings -/

theorem strLess_iff_lex (a b : Str) : strLess a b = true ↔ List.Lex (· < ·) a b := by
  induction a generalizing b with
  | nil =>
    cases b with
    | nil => simp [strLess]
    | cons y t => simp [strLess, List.Lex.nil]
  | cons x s ih =>
    cases b with
    | nil => simp [strLess]
    | cons y t =>
      simp only [strLess]
      by_cases h1 : x < y
      · simp only [h1, if_true, true_iff]
        exact List.Lex.rel h1
      · by_cases h2 : y < x
        · simp only [h1, h2, if_false, if_true, Bool.false_eq_true, false_iff]
          intro h
          cases h with
          | cons h => omega
          | rel h => omega
        · have e : x = y := by omega
          subst e
          simp only [h1, if_false, ih]
          constructor
          · exact List.Lex.cons
          · intro h
            cases h with
            | cons h => exact h
            | rel h => omega

theorem strLess_irrefl (a : Str) : strLess a a = false := by
  induction a with
  | nil => rfl
  | cons x s ih => simp [strLess, ih]

theorem strLess_asymm (a b : Str) (h : strLess a b = true) : strLess b a = false := by
  induction a generalizing b with
  | nil => cases b <;> simp [strLess] at h ⊢
  | cons x s ih =>
    cases b with
    | nil => simp [strLess] at h
    | cons y t =>
      simp only [strLess] at h ⊢
      by_cases h1 : x < y
      · have : ¬ y < x := by omega
        simp [h1, this]
      · by_cases h2 : y < x
        · simp [h1, h2] at h
        · simp only [h1, h2, if_false] at h ⊢
          exact ih t h

theorem strLess_trans (a b c : Str) (h1 : strLess a b = true) (h2 : strLess b c = true) :
    strLess a c = true := by
  induction a generalizing b c with
  | nil =>
    cases b with
    | nil => simp [strLess] at h1
    | cons y t => cases c <;> simp [strLess] at h2 ⊢
  | cons x s ih =>
    cases b with
    | nil => simp [strLess] at h1
    | cons y t =>
      cases c with
      | nil => simp [strLess] at h2
      | cons z u =>
        simp only [strLess] at h1 h2 ⊢
        by_cases xy : x < y
        · by_cases yz : y < z
          · have : x < z := by omega
            simp [this]
          · by_cases zy : z < y
            · simp [yz, zy] at h2
            · have e : y = z := by omega
              subst e
              simp [xy]
        · by_cases yx : y < x
          · simp [xy, yx] at h1
          · have e : x = y := by omega
            subst e
            simp only [xy, if_false] at h1
            by_cases yz : x < z
            · simp [yz]
            · by_cases zy : z < x
              · simp [yz, zy] at h2
              · simp only [yz, zy, if_false] at h2 ⊢
                exact ih t u h1 h2

theorem strLess_connex (a b : Str) (h1 : strLess a b = false) (h2 : strLess b a = false) :
    a = b := by
  induction a generalizing b with
  | nil => cases b <;> simp [strLess] at h1 ⊢
  | cons x s ih =>
    cases b with
    | nil => simp [strLess] at h2
    | cons y t =>
      simp only [strLess] at h1 h2
      by_cases xy : x < y
      · simp [xy] at h1
      · by_cases yx : y < x
        · simp [yx] at h2
        · have e : x = y := by omega
          subst e
          simp only [xy, if_false] at h1 h2
          rw [ih t h1 h2]

theorem strLE_isTotal : IsTotal Str strLE where
  total a b := by
    unfold strLE
    cases h : strLess b a
    · exact Or.inl rfl
    · exact Or.inr (strLess_asymm b a h)

theorem strLE_isTrans : IsTrans Str strLE where
  trans a b c hab hbc := by
    unfold strLE at *
    cases h : strLess c a
    · rfl
    · cases h' : strLess a b
      · have e := strLess_connex a b h' hab
        subst e
        rw [h] at hbc; exact hbc
      · rw [strLess_trans c a b h h'] at hbc
        exact hbc

theorem strLE_isAntisymm : IsAntisymm Str strLE where
  antisymm a b hab hba := strLess_connex a b hba hab

theorem sortStrings_sorted (l : List Str) : (sortStrings l).Sorted strLE :=
  haveI := strLE_isTotal
  haveI := strLE_isTrans
  List.sorted_insertionSort strLE l

theorem sortStrings_perm (l : List Str) : (sortStrings l).Perm l :=
  List.perm_insertionSort strLE l

/-- The outcome of `sort.Strings` does not depend on the sorting algorithm: a sorted
rearrangement of a list is unique. -/
theorem sortStrings_unique (l l' : List Str) (hp : l'.Perm l) (hs : l'.Sorted strLE) :
    l' = sortStrings l :=
  haveI := strLE_isAntisymm
  List.eq_of_perm_of_sorted (hp.trans (sortStrings_perm l).symm) hs (sortStrings_sorted l)

theorem sortStrings_strict (l : List Str) (h : l.Nodup) :
    (sortStrings l).Pairwise (fun a b => strLess a b = true) := by
  have hn : (sortStrings l).Nodup := (sortStrings_perm l).nodup_iff.mpr h
  have hs := sortStrings_sorted l
  unfold List.Sorted at hs
  have := hs.and hn
  refine this.imp ?_
  intro a b ⟨hab, hne⟩
  unfold strLE at hab
  cases h' : strLess a b
  · exact absurd (strLess_connex a b h' hab) hne
  · rfl

theorem keys_perm (m : OutputMap) : (keys m).Perm (m.map Prod.fst) := sortStrings_perm _

theorem renderTabular_eq (m : OutputMap) :
    renderTabular m = ((keys m).map (tabularLine m)).flatten := by
  unfold renderTabular
  generalize keys m = ks
  have : ∀ (ks : List Str) (buf : Str),
      ks.foldl (fun buf k => buf ++ tabularLine m k) buf = buf ++ (ks.map (tabularLine m)).flatten := by
    intro ks
    induction ks with
    | nil => simp
    | cons k ks ih => intro buf; simp [ih]
  simpa using this ks []


theorem strict_sorted_ext (l l' : List Str)
    (hl : l.Pairwise (fun a b => strLess a b = true))
    (hl' : l'.Pairwise (fun a b => strLess a b = true))
    (h : ∀ k, k ∈ l ↔ k ∈ l') : l = l' := by
  have nd : ∀ x : List Str, x.Pairwise (fun a b => strLess a b = true) → x.Nodup := by
    intro x hx
    refine hx.imp ?_
    intro a b hab e
    subst e
    rw [strLess_irrefl] at hab
    exact Bool.noConfusion hab
  have so : ∀ x : List Str, x.Pairwise (fun a b => strLess a b = true) → x.Sorted strLE := by
    intro x hx
    refine hx.imp ?_
    intro a b hab
    exact strLess_asymm a b hab
  have hp : l.Perm l' := (List.perm_ext_iff_of_nodup (nd l hl) (nd l' hl')).mpr h
  haveI := strLE_isAntisymm
  exact List.eq_of_perm_of_sorted hp (so l hl) (so l' hl')

theorem mem_keys_iff (m : OutputMap) (k : Str) : k ∈ keys m ↔ ∃ v, (k, v) ∈ m := by
  rw [(keys_perm m).mem_iff]
  simp

theorem get_of_mem (m : OutputMap) (h : m.WF) (k v : Str) (hm : (k, v) ∈ m) : m.get k = v := by
  unfold OutputMap.get
  rw [(OutputMap.lookup_eq_some_iff m h k v).mpr hm]
  rfl

/-! ## Collection, tabular rendering and configuration (C1, C2, C3, C8, C10) -/

/-- C1.  Tabular rendering (neither JSON nor template mode) never fails and writes
exactly the lines `key TAB value NEWLINE`, one for each entry of the map and nothing
else, in strictly ascending byte-wise order of the keys: `keys m` is strictly
ascending, lists exactly the keys of the map, once each, is the only such list, and the
output is the concatenation of the lines of its keys.  The order is the lexicographic
order of the byte sequences. -/
theorem renderTabular_sorted_lines (m : OutputMap) (h : m.WF) :
    (keys m).Pairwise (fun a b => strLess a b = true) ∧
    (∀ k, k ∈ keys m ↔ ∃ v, (k, v) ∈ m) ∧
    (keys m).length = m.length ∧
    (∀ ks : List Str, ks.Pairwise (fun a b => strLess a b = true) →
      (∀ k, k ∈ ks ↔ ∃ v, (k, v) ∈ m) → ks = keys m) ∧
    (∀ k v, (k, v) ∈ m → m.get k = v) ∧
    (∀ a b, strLess a b = true ↔ List.Lex (· < ·) a b) ∧
    render false none m =
      (((keys m).map fun k => k ++ [9] ++ m.get k ++ [10]).flatten, none) := by
  have hs := sortStrings_strict (m.map Prod.fst) h
  refine ⟨hs, mem_keys_iff m, ?_, ?_, get_of_mem m h, strLess_iff_lex, ?_⟩
  · simpa using (keys_perm m).length_eq
  · intro ks hks hmem
    apply strict_sorted_ext ks (keys m) hks hs
    intro k
    rw [hmem, mem_keys_iff]
  · simp only [render, Bool.false_eq_true, if_false, renderTabular_eq]
    rfl

/-- C1, at the map `{"B":"2","A":"1"}`: the output is exactly `A\t1\nB\t2\n`. -/
theorem renderTabular_sorted_lines_witness :
    OutputMap.WF [(ascii "B", ascii "2"), (ascii "A", ascii "1")] ∧
    keys [(ascii "B", ascii "2"), (ascii "A", ascii "1")] = [ascii "A", ascii "B"] ∧
    render false none [(ascii "B", ascii "2"), (ascii "A", ascii "1")] =
      (ascii "A\t1\nB\t2\n", none) :=
  ⟨by decide, by decide,
    (renderTabular_sorted_lines [(ascii "B", ascii "2"), (ascii "A", ascii "1")]
      (by decide)).2.2.2.2.2.2.trans (by decide)⟩

/-- C2.  The collected map has key `k` with value `v` exactly when the sequence has a
pair with key `k` and value `v`, both present, after which no pair with key `k` has a
value (last write wins).  A pair missing its key or its value leaves the map as it is,
and dropping all such pairs from the sequence does not change the result.  `collect` is
a total function: it cannot fail. -/
theorem collect_last_write_wins (outputs : List OutputPair) :
    (∀ k v, (collect outputs).lookup k = some v ↔
      ∃ pre post, outputs = pre ++ ⟨some k, some v⟩ :: post ∧
        ∀ o ∈ post, o.OutputKey = some k → o.OutputValue = none) ∧
    (∀ m o, (o.OutputKey = none ∨ o.OutputValue = none) → collectStep m o = m) ∧
    collect outputs = collect (outputs.filter OutputPair.complete) ∧
    (collect outputs).WF := by
  refine ⟨collect_lookup_iff outputs, ?_, foldl_collectStep_filter outputs [], collect_WF outputs⟩
  intro m o ho
  apply collectStep_incomplete
  rcases ho with ho | ho <;> simp [OutputPair.complete, ho]

/-- C2, at the sequence `(A,1)`, `(nil,3)`, `(A,2)`: the map gives `A` the value `2`, and
the pair without a key leaves a map unchanged. -/
theorem collect_last_write_wins_witness :
    (collect [⟨some (ascii "A"), some (ascii "1")⟩, ⟨none, some (ascii "3")⟩,
      ⟨some (ascii "A"), some (ascii "2")⟩]).lookup (ascii "A") = some (ascii "2") ∧
    collectStep [(ascii "A", ascii "1")] ⟨none, some (ascii "3")⟩ = [(ascii "A", ascii "1")] :=
  ⟨((collect_last_write_wins [⟨some (ascii "A"), some (ascii "1")⟩, ⟨none, some (ascii "3")⟩,
      ⟨some (ascii "A"), some (ascii "2")⟩]).1 (ascii "A") (ascii "2")).mpr
      ⟨[⟨some (ascii "A"), some (ascii "1")⟩, ⟨none, some (ascii "3")⟩], [], rfl, by simp⟩,
    (collect_last_write_wins []).2.1 [(ascii "A", ascii "1")] ⟨none, some (ascii "3")⟩
      (Or.inl rfl)⟩

/-- C3.  When the stack identifier is empty, or a template file and the JSON flag are
both set, `run` returns a configuration error and has made no call to the outside: the
template file is not read, the credentials are not loaded, the stacks are not described
and nothing is written. -/
theorem run_config_error_before_remote (env : Env) (args : runArgs)
    (h : args.stackName = [] ∨ (args.tplFile ≠ [] ∧ args.json = true)) :
    ((run env args).1 = some Err.stackNameUnset ∨ (run env args).1 = some Err.jsonWithTemplate) ∧
    (args.stackName = [] → (run env args).1 = some Err.stackNameUnset) ∧
    (run env args).2 = [] := by
  unfold run
  by_cases h1 : args.stackName = []
  · simp [h1]
  · rcases h with h | ⟨h2, h3⟩
    · exact absurd h h1
    · simp [h1, h2, h3]

/-- C3, at a run with stack `s`, template file `t` and the JSON flag. -/
theorem run_config_error_before_remote_witness :
    run exampleEnv ⟨ascii "s", ascii "t", [], true⟩ = (some Err.jsonWithTemplate, []) ∧
    (run exampleEnv ⟨ascii "s", ascii "t", [], true⟩).2 = [] :=
  ⟨by decide,
    (run_config_error_before_remote exampleEnv ⟨ascii "s", ascii "t", [], true⟩
      (Or.inr ⟨by decide, rfl⟩)).2.2⟩

/-- C8.  The collected map has at most as many entries as the sequence has pairs with
both key and value present, hence at most as many as the sequence has pairs. -/
theorem collect_card_le (outputs : List OutputPair) :
    (collect outputs).length ≤ (outputs.filter OutputPair.complete).length ∧
    (outputs.filter OutputPair.complete).length ≤ outputs.length ∧
    (collect outputs).length ≤ outputs.length := by
  have h1 := collect_length_le outputs
  have h2 : (outputs.filter OutputPair.complete).length ≤ outputs.length :=
    List.length_filter_le _ _
  exact ⟨h1, h2, h1.trans h2⟩

/-- C10.  For the empty map, tabular rendering writes no byte and JSON rendering writes
exactly the three bytes `{}\n`; neither fails. -/
theorem render_empty_map :
    render false none [] = ([], none) ∧ render true none [] = (ascii "{}\n", none) := by
  constructor <;> decide

/-! ## The run and its sinks (C9) -/

theorem writes_writeOut (env : Env) (args : runArgs) (buf : Str) :
    writes (writeOut env args buf).2 = [buf] ∧
    (writeOut env args buf).2 =
      [if args.outFile ≠ [] then Event.writeFile args.outFile buf else Event.stdoutWrite buf] := by
  unfold writeOut
  by_cases h : args.outFile = [] <;> simp [h, writes]

theorem writeOut_accepted (env : Env) (args : runArgs) (buf : Str)
    (h : (writeOut env args buf).1 = none) :
    (args.outFile ≠ [] → env.writeFile args.outFile buf = none) ∧
    (args.outFile = [] → env.stdoutWrite buf = none) := by
  unfold writeOut at h
  by_cases ho : args.outFile = []
  · simp only [ho, ne_eq, not_true_eq_false, if_false, Option.map_eq_none'] at h
    exact ⟨fun hne => absurd ho hne, fun _ => h⟩
  · simp only [ne_eq, ho, not_false_eq_true, if_true, Option.map_eq_none'] at h
    exact ⟨fun _ => h, fun he => absurd he ho⟩

theorem runRemote_render_error (env : Env) (args : runArgs) (tpl : Option Template)
    (outputs : List OutputPair) (buf : Str) (e : Err)
    (hc : env.loadDefaultConfig = none)
    (hd : env.describeStacks args.stackName = Except.ok [outputs])
    (hr : render args.json tpl (collect outputs) = (buf, some e)) :
    runRemote env args tpl =
      (some e, [Event.loadDefaultConfig, Event.describeStacks args.stackName]) := by
  simp [runRemote, hc, hd, hr]

theorem runRemote_render_ok (env : Env) (args : runArgs) (tpl : Option Template)
    (outputs : List OutputPair) (buf : Str)
    (hc : env.loadDefaultConfig = none)
    (hd : env.describeStacks args.stackName = Except.ok [outputs])
    (hr : render args.json tpl (collect outputs) = (buf, none)) :
    runRemote env args tpl =
      ((writeOut env args buf).1,
        [Event.loadDefaultConfig, Event.describeStacks args.stackName] ++
          (writeOut env args buf).2) := by
  simp [runRemote, hc, hd, hr]

theorem runRemote_success (env : Env) (args : runArgs) (tpl : Option Template)
    (h : (runRemote env args tpl).1 = none) :
    env.loadDefaultConfig = none ∧
    ∃ outputs buf, env.describeStacks args.stackName = Except.ok [outputs] ∧
      render args.json tpl (collect outputs) = (buf, none) := by
  unfold runRemote at h
  cases hc : env.loadDefaultConfig with
  | some e => simp [hc] at h
  | none =>
    refine ⟨rfl, ?_⟩
    cases hd : env.describeStacks args.stackName with
    | error e => simp [hc, hd] at h
    | ok stackList =>
      match stackList, hd with
      | [], hd => simp [hc, hd] at h
      | _ :: _ :: _, hd => simp [hc, hd] at h
      | [outputs], hd =>
        refine ⟨outputs, ?_⟩
        rcases hr : render args.json tpl (collect outputs) with ⟨buf, _ | e⟩
        · exact ⟨buf, rfl, rfl⟩
        · simp [hc, hd, hr] at h

/-- C9.  When the run reaches rendering and rendering fails (the JSON encoder or the
template execution returns an error, a missing key included), `run` returns that error
and no write to a sink has been made.  When `run` returns success, it reached rendering,
rendering succeeded, and exactly one write was made: the whole rendered buffer, to the
output file when one is named and to standard output otherwise, and that sink accepted
it without an error. -/
theorem run_sink_only_complete_render (env : Env) (args : runArgs) :
    (∀ tpl outputs buf e, reachesRender env args tpl outputs →
      render args.json tpl (collect outputs) = (buf, some e) →
      (run env args).1 = some e ∧ writes (run env args).2 = []) ∧
    ((run env args).1 = none →
      ∃ tpl outputs buf, reachesRender env args tpl outputs ∧
        render args.json tpl (collect outputs) = (buf, none) ∧
        writes (run env args).2 = [buf] ∧
        (if args.outFile ≠ [] then Event.writeFile args.outFile buf
          else Event.stdoutWrite buf) ∈ (run env args).2 ∧
        (args.outFile ≠ [] → env.writeFile args.outFile buf = none) ∧
        (args.outFile = [] → env.stdoutWrite buf = none)) := by
  constructor
  · rintro tpl outputs buf e ⟨hs, ht, hc, hd⟩ hr
    have hrem := runRemote_render_error env args tpl outputs buf e hc hd hr
    rcases ht with ⟨ht, rfl⟩ | ⟨ht, hj, t, hp, rfl⟩
    · simp [run, hs, ht, hrem, writes]
    · simp [run, hs, ht, hj, hp, hrem, writes]
  · intro h
    unfold run at h
    by_cases hs : args.stackName = []
    · simp [hs] at h
    · by_cases ht : args.tplFile = []
      · simp only [hs, ht, if_false, ne_eq, not_true_eq_false] at h
        obtain ⟨hc, outputs, buf, hd, hr⟩ := runRemote_success env args none h
        have hrem := runRemote_render_ok env args none outputs buf hc hd hr
        have hw := writes_writeOut env args buf
        have hsink := writeOut_accepted env args buf (by rw [hrem] at h; exact h)
        refine ⟨none, outputs, buf, ⟨hs, Or.inl ⟨ht, rfl⟩, hc, hd⟩, hr, ?_, ?_, hsink⟩
        · simp [run, hs, ht, hrem, writes, hw.1]
        · simp only [run, hs, ht, if_false, ne_eq, not_true_eq_false, hrem, hw.2]
          simp
      · by_cases hj' : args.json = true
        · simp [hs, ht, hj'] at h
        · have hj : args.json = false := by simpa using hj'
          cases hp : env.parseFiles args.tplFile with
          | error e => simp [hs, ht, hj, hp] at h
          | ok t =>
            simp only [hs, ht, hj, hp, if_false, ne_eq, not_false_eq_true, if_true,
              Bool.false_eq_true] at h
            obtain ⟨hc, outputs, buf, hd, hr⟩ := runRemote_success env args (some t) h
            have hrem := runRemote_render_ok env args (some t) outputs buf hc hd hr
            have hw := writes_writeOut env args buf
            have hsink := writeOut_accepted env args buf (by rw [hrem] at h; exact h)
            refine ⟨some t, outputs, buf, ⟨hs, Or.inr ⟨ht, hj, t, hp, rfl⟩, hc, hd⟩, hr,
              ?_, ?_, hsink⟩
            · simp [run, hs, ht, hj, hp, hrem, writes, hw.1]
            · simp only [run, hs, ht, hj, hp, if_false, ne_eq, not_false_eq_true, if_true,
                Bool.false_eq_true, hrem, hw.2]
              simp

/-- A sink that refuses every write, in the example environment. -/
theorem refusing_sink_is_reported :
    (run { exampleEnv with stdoutWrite := fun _ => some (ascii "closed") }
      ⟨ascii "s", [], [], false⟩).1 = some (Err.sink (ascii "closed")) := by
  decide

/-- C9, at two runs of the example environment: with the template `{{.B}}` the render
fails on the missing key and nothing is written; without a template the run succeeds,
and standard output received `A\t1\n` once and accepted it. -/
theorem run_sink_only_complete_render_witness :
    ((run exampleEnv ⟨ascii "s", ascii "t", [], false⟩).1 =
        some (Err.execute (ExecError.missingKey (ascii "B"))) ∧
      writes (run exampleEnv ⟨ascii "s", ascii "t", [], false⟩).2 = []) ∧
    (run exampleEnv ⟨ascii "s", [], [], false⟩).1 = none ∧
    writes (run exampleEnv ⟨ascii "s", [], [], false⟩).2 = [ascii "A\t1\n"] ∧
    ∃ tpl outputs buf, reachesRender exampleEnv ⟨ascii "s", [], [], false⟩ tpl outputs ∧
      render false tpl (collect outputs) = (buf, none) ∧
      writes (run exampleEnv ⟨ascii "s", [], [], false⟩).2 = [buf] ∧
      Event.stdoutWrite buf ∈ (run exampleEnv ⟨ascii "s", [], [], false⟩).2 ∧
      exampleEnv.stdoutWrite buf = none :=
  ⟨(run_sink_only_complete_render exampleEnv ⟨ascii "s", ascii "t", [], false⟩).1
      (some [Node.action (Pipe.field (ascii "B"))])
      [⟨some (ascii "A"), some (ascii "1")⟩] [] (Err.execute (ExecError.missingKey (ascii "B")))
      ⟨by decide, Or.inr ⟨by decide, rfl, _, rfl, rfl⟩, rfl, rfl⟩ (by decide),
    by decide, by decide,
    match (run_sink_only_complete_render exampleEnv ⟨ascii "s", [], [], false⟩).2
      (by decide) with
    | ⟨tpl, outputs, buf, h1, h2, h3, h4, _, h6⟩ =>
      ⟨tpl, outputs, buf, h1, h2, h3, h4, h6 rfl⟩⟩

/-! ## Template execution: lemmas -/

theorem evalPipeline_of_truth_some (m : OutputMap) (p : Pipe) (b : Bool)
    (h : p.truth m = some b) :
    (∃ v, evalPipeline m p = Except.ok v ∧ isTrue v = b) ∧ ∀ k ∈ p.refs, m.lookup k ≠ none := by
  cases p with
  | bool c =>
    simp only [Pipe.truth, Option.some.injEq] at h
    subst h
    exact ⟨⟨Value.bool c, rfl, rfl⟩, by simp [Pipe.refs]⟩
  | chain name next more => simp [Pipe.truth] at h
  | field name =>
    cases hl : m.lookup name with
    | none => simp [Pipe.truth, hl] at h
    | some v =>
      simp only [Pipe.truth, hl, Option.map_some', Option.some.injEq] at h
      refine ⟨⟨Value.str v, by simp [evalPipeline, hl], by simpa [isTrue] using h⟩, ?_⟩
      intro k hk
      simp only [Pipe.refs, List.mem_singleton] at hk
      subst hk
      simp [hl]

theorem evalPipeline_of_truth_none (m : OutputMap) (p : Pipe) (h : p.truth m = none) :
    ∃ e, evalPipeline m p = Except.error e ∧
      (∀ k ∈ p.refs, m.lookup k = none → e = ExecError.missingKey k) ∧
      (∀ k, e = ExecError.missingKey k → k ∈ p.refs ∧ m.lookup k = none) := by
  cases p with
  | bool c => simp [Pipe.truth] at h
  | chain name next more =>
    cases hl : m.lookup name with
    | none =>
      refine ⟨ExecError.missingKey name, by simp [evalPipeline, hl], ?_, ?_⟩
      · intro k hk _
        simp only [Pipe.refs, List.mem_singleton] at hk
        rw [hk]
      · intro k hk
        simp only [ExecError.missingKey.injEq] at hk
        subst hk
        exact ⟨by simp [Pipe.refs], hl⟩
    | some v =>
      refine ⟨ExecError.cantEvaluateField next, by simp [evalPipeline, hl], ?_, ?_⟩
      · intro k hk ha
        simp only [Pipe.refs, List.mem_singleton] at hk
        subst hk
        rw [hl] at ha
        exact Option.noConfusion ha
      · intro k hk
        exact ExecError.noConfusion hk
  | field name =>
    cases hl : m.lookup name with
    | some v => simp [Pipe.truth, hl] at h
    | none =>
      refine ⟨ExecError.missingKey name, by simp [evalPipeline, hl], ?_, ?_⟩
      · intro k hk _
        simp only [Pipe.refs, List.mem_singleton] at hk
        rw [hk]
      · intro k hk
        simp only [ExecError.missingKey.injEq] at hk
        subst hk
        exact ⟨by simp [Pipe.refs], hl⟩

theorem walk_ifNode_of_truth (m : OutputMap) (p : Pipe) (list elseList : List Node) (buf : Str)
    (b : Bool) (h : p.truth m = some b) :
    walk m (Node.ifNode p list elseList) buf =
      walkList m (if b then list else elseList) buf := by
  obtain ⟨⟨v, hv, ht⟩, _⟩ := evalPipeline_of_truth_some m p b h
  simp only [walk, hv, ht]
  cases b <;> simp

theorem Agrees.prefix_ok (m : OutputMap) (pre : List Str) (ev : List Str × Bool)
    (err : Option ExecError) (hpre : ∀ k ∈ pre, m.lookup k ≠ none) (h : Agrees m ev err) :
    Agrees m (pre ++ ev.1, ev.2) err := by
  obtain ⟨h1, h2⟩ := h
  constructor
  · intro ht
    obtain ⟨he, hk⟩ := h1 ht
    refine ⟨he, ?_⟩
    intro k hmem
    rcases List.mem_append.mp hmem with hmem | hmem
    · exact hpre k hmem
    · exact hk k hmem
  · intro hf
    obtain ⟨e, he, ha, hb⟩ := h2 hf
    refine ⟨e, he, ?_, ?_⟩
    · intro k hmem hnone
      rcases List.mem_append.mp hmem with hmem | hmem
      · exact absurd hnone (hpre k hmem)
      · exact ha k hmem hnone
    · intro k hk
      obtain ⟨hm1, hm2⟩ := hb k hk
      exact ⟨List.mem_append.mpr (Or.inr hm1), hm2⟩

theorem Agrees.of_pipe_none (m : OutputMap) (p : Pipe) (h : p.truth m = none) :
    ∃ e, evalPipeline m p = Except.error e ∧ Agrees m (p.refs, false) (some e) := by
  obtain ⟨e, he, ha, hb⟩ := evalPipeline_of_truth_none m p h
  refine ⟨e, he, ?_, ?_⟩
  · intro hc; exact Bool.noConfusion hc
  · intro _; exact ⟨e, rfl, ha, hb⟩

mutual
theorem walk_agrees (m : OutputMap) (n : Node) (buf : Str) :
    Agrees m (n.evaluated m) (walk m n buf).2 := by
  match n with
  | Node.text s =>
    simp only [Node.evaluated, walk]
    exact ⟨fun _ => ⟨rfl, by simp⟩, fun h => Bool.noConfusion h⟩
  | Node.action pipe =>
    cases ht : pipe.truth m with
    | some b =>
      obtain ⟨⟨v, hv, _⟩, hk⟩ := evalPipeline_of_truth_some m pipe b ht
      simp only [Node.evaluated, ht, Option.isSome_some, walk, hv]
      exact ⟨fun _ => ⟨rfl, hk⟩, fun h => Bool.noConfusion h⟩
    | none =>
      obtain ⟨e, he, hag⟩ := Agrees.of_pipe_none m pipe ht
      simp only [Node.evaluated, ht, Option.isSome_none, walk, he]
      exact hag
  | Node.ifNode pipe list elseList =>
    cases ht : pipe.truth m with
    | none =>
      obtain ⟨e, he, hag⟩ := Agrees.of_pipe_none m pipe ht
      simp only [Node.evaluated, ht, walk, he]
      exact hag
    | some b =>
      obtain ⟨_, hk⟩ := evalPipeline_of_truth_some m pipe b ht
      rw [walk_ifNode_of_truth m pipe list elseList buf b ht]
      cases b with
      | true =>
        simp only [Node.evaluated, ht, if_true]
        exact Agrees.prefix_ok m pipe.refs _ _ hk (walkList_agrees m list buf)
      | false =>
        simp only [Node.evaluated, ht, Bool.false_eq_true, if_false]
        exact Agrees.prefix_ok m pipe.refs _ _ hk (walkList_agrees m elseList buf)
theorem walkList_agrees (m : OutputMap) (l : List Node) (buf : Str) :
    Agrees m (evaluatedList m l) (walkList m l buf).2 := by
  match l with
  | [] =>
    simp only [evaluatedList, walkList]
    exact ⟨fun _ => ⟨rfl, by simp⟩, fun h => Bool.noConfusion h⟩
  | n :: rest =>
    have hn := walk_agrees m n buf
    cases hflag : (n.evaluated m).2 with
    | true =>
      obtain ⟨herr, hk⟩ := hn.1 hflag
      rcases hw : walk m n buf with ⟨buf1, _ | e⟩
      · simp only [evaluatedList, hflag, if_true, walkList, hw]
        exact Agrees.prefix_ok m _ _ _ hk (walkList_agrees m rest buf1)
      · rw [hw] at herr
        exact Option.noConfusion herr
    | false =>
      obtain ⟨e, herr, _⟩ := hn.2 hflag
      rcases hw : walk m n buf with ⟨buf1, _ | e'⟩
      · rw [hw] at herr
        exact Option.noConfusion herr
      · simp only [evaluatedList, hflag, Bool.false_eq_true, if_false, walkList, hw]
        have := hn
        rw [hw] at this
        exact ⟨fun h => Bool.noConfusion h, fun _ => this.2 hflag⟩
end

/-! ## Template strictness (C4) -/

theorem map_fst_orderedInsert (a : Str × Str) (l : List (Str × Str)) :
    (List.orderedInsert (fun p q : Str × Str => strLE p.1 q.1) a l).map Prod.fst =
      List.orderedInsert strLE a.1 (l.map Prod.fst) := by
  induction l with
  | nil => simp
  | cons b l ih =>
    simp only [List.orderedInsert, List.map_cons]
    split
    · simp
    · simp [ih]

theorem map_fst_sortedEntries (m : OutputMap) : (sortedEntries m).map Prod.fst = keys m := by
  unfold sortedEntries keys sortStrings
  induction m with
  | nil => simp
  | cons a l ih => simp only [List.insertionSort, List.map_cons, map_fst_orderedInsert, ih]

theorem sortedEntries_perm (m : OutputMap) : (sortedEntries m).Perm m :=
  List.perm_insertionSort _ m

theorem sortedEntries_eq (m : OutputMap) (h : m.WF) :
    sortedEntries m = (keys m).map fun k => (k, m.get k) := by
  rw [← map_fst_sortedEntries, List.map_map]
  have : ∀ p ∈ sortedEntries m, p = ((fun k => (k, m.get k)) ∘ Prod.fst) p := by
    intro p hp
    have hm : p ∈ m := (sortedEntries_perm m).mem_iff.mp hp
    obtain ⟨k, v⟩ := p
    simp [get_of_mem m h k v hm]
  conv_lhs => rw [← List.map_id (sortedEntries m)]
  exact List.map_congr_left this

theorem lookup_congr (m1 m2 : OutputMap) (h1 : m1.WF) (h2 : m2.WF)
    (h : ∀ k v, (k, v) ∈ m1 ↔ (k, v) ∈ m2) (k : Str) : m1.lookup k = m2.lookup k := by
  apply Option.ext
  intro v
  simp only [Option.mem_def]
  rw [OutputMap.lookup_eq_some_iff m1 h1, OutputMap.lookup_eq_some_iff m2 h2, h]

theorem keys_congr (m1 m2 : OutputMap) (h1 : m1.WF) (h2 : m2.WF)
    (h : ∀ k v, (k, v) ∈ m1 ↔ (k, v) ∈ m2) : keys m1 = keys m2 := by
  apply strict_sorted_ext (keys m1) (keys m2) (sortStrings_strict _ h1) (sortStrings_strict _ h2)
  intro k
  rw [mem_keys_iff, mem_keys_iff]
  constructor <;> rintro ⟨v, hv⟩ <;> exact ⟨v, by simpa [h] using hv⟩

mutual
theorem walk_congr (m1 m2 : OutputMap) (h : ∀ k, m1.lookup k = m2.lookup k) (n : Node)
    (buf : Str) : walk m1 n buf = walk m2 n buf := by
  have hp : ∀ p, evalPipeline m1 p = evalPipeline m2 p := by
    intro p; cases p <;> simp [evalPipeline, h]
  match n with
  | Node.text s => simp [walk]
  | Node.action pipe => simp [walk, hp]
  | Node.ifNode pipe list elseList =>
    simp only [walk, hp]
    rw [walkList_congr m1 m2 h list buf, walkList_congr m1 m2 h elseList buf]
theorem walkList_congr (m1 m2 : OutputMap) (h : ∀ k, m1.lookup k = m2.lookup k)
    (l : List Node) (buf : Str) : walkList m1 l buf = walkList m2 l buf := by
  match l with
  | [] => simp [walkList]
  | n :: rest =>
    simp only [walkList, walk_congr m1 m2 h n buf]
    rcases walk m2 n buf with ⟨buf1, _ | e⟩
    · exact walkList_congr m1 m2 h rest buf1
    · rfl
end

theorem render_congr (m1 m2 : OutputMap) (h1 : m1.WF) (h2 : m2.WF)
    (h : ∀ k v, (k, v) ∈ m1 ↔ (k, v) ∈ m2) (json : Bool) (tpl : Option Template) :
    render json tpl m1 = render json tpl m2 := by
  have hl := lookup_congr m1 m2 h1 h2 h
  have hk := keys_congr m1 m2 h1 h2 h
  have hg : ∀ k, m1.get k = m2.get k := fun k => by simp [OutputMap.get, hl]
  have hj : renderJSON m1 = renderJSON m2 := by
    unfold renderJSON marshalMap
    rw [sortedEntries_eq m1 h1, sortedEntries_eq m2 h2, hk]
    simp only [hg]
  have ht : renderTabular m1 = renderTabular m2 := by
    have hline : tabularLine m1 = tabularLine m2 := by
      funext k
      simp only [tabularLine, hg]
    rw [renderTabular_eq, renderTabular_eq, hk, hline]
  unfold render
  rw [hj, ht]
  cases tpl with
  | none => rfl
  | some t => simp only [Execute, walkList_congr m1 m2 hl]

/-- C7.  Rendering is a function of the set of entries of the map alone.  Two maps with
the same entries, whatever the order in which they are enumerated or were inserted, have
the same sorted key list and render to the same bytes, or fail with the same error, in
every mode; in particular this holds for a map and any reordering of it. -/
theorem render_deterministic (m1 m2 : OutputMap) (h1 : m1.WF) :
    (m2.WF → (∀ k v, (k, v) ∈ m1 ↔ (k, v) ∈ m2) →
      keys m1 = keys m2 ∧ ∀ json tpl, render json tpl m1 = render json tpl m2) ∧
    (m1.Perm m2 →
      keys m1 = keys m2 ∧ ∀ json tpl, render json tpl m1 = render json tpl m2) := by
  have main : m2.WF → (∀ k v, (k, v) ∈ m1 ↔ (k, v) ∈ m2) →
      keys m1 = keys m2 ∧ ∀ json tpl, render json tpl m1 = render json tpl m2 :=
    fun h2 h => ⟨keys_congr m1 m2 h1 h2 h, render_congr m1 m2 h1 h2 h⟩
  refine ⟨main, ?_⟩
  intro hp
  have h2 : m2.WF := by
    unfold OutputMap.WF at *
    exact (hp.map Prod.fst).nodup_iff.mp h1
  exact main h2 (fun k v => hp.mem_iff)

/-- C7, at the map `{"B":"2","A":"1"}` enumerated in both orders. -/
theorem render_deterministic_witness :
    keys [(ascii "B", ascii "2"), (ascii "A", ascii "1")] =
      keys [(ascii "A", ascii "1"), (ascii "B", ascii "2")] ∧
    ∀ json tpl, render json tpl [(ascii "B", ascii "2"), (ascii "A", ascii "1")] =
      render json tpl [(ascii "A", ascii "1"), (ascii "B", ascii "2")] :=
  (render_deterministic [(ascii "B", ascii "2"), (ascii "A", ascii "1")]
    [(ascii "A", ascii "1"), (ascii "B", ascii "2")] (by decide)).2 (List.Perm.swap _ _ _)

/-! ## The JSON encoder: lemmas -/

theorem Copied.nil (pfx indent : Str) : Copied pfx indent [] := by
  intro ps d dst more; simp

theorem Copied.append {pfx indent a b : Str} (ha : Copied pfx indent a)
    (hb : Copied pfx indent b) : Copied pfx indent (a ++ b) := by
  intro ps d dst more
  rw [List.append_assoc, ha, hb, List.append_assoc]

theorem Copied.raw (pfx indent : Str) (c : Nat) (h1 : 0x20 ≤ c) (h2 : c ≠ 34) (h3 : c ≠ 92) :
    Copied pfx indent [c] := by
  intro ps d dst more
  have hlt : ¬ c < 32 := by omega
  simp [indentLoop, indentStep, Scanner.run, inStr, Scanner.stateInString, h2, h3, hlt]

theorem Copied.raws (pfx indent : Str) (l : Str) (h : ∀ c ∈ l, 0x80 ≤ c) :
    Copied pfx indent l := by
  induction l with
  | nil => exact Copied.nil pfx indent
  | cons c l ih =>
    have hc := h c (List.mem_cons_self _ _)
    have := Copied.append (Copied.raw pfx indent c (by omega) (by omega) (by omega))
      (ih (fun x hx => h x (List.mem_cons_of_mem _ hx)))
    simpa using this

theorem Copied.esc (pfx indent : Str) (x : Nat)
    (h : x = 98 ∨ x = 102 ∨ x = 110 ∨ x = 114 ∨ x = 116 ∨ x = 92 ∨ x = 47 ∨ x = 34) :
    Copied pfx indent [92, x] := by
  intro ps d dst more
  simp [indentLoop, indentStep, Scanner.run, inStr, Scanner.stateInString,
    Scanner.stateInStringEsc, h]

theorem Copied.escU (pfx indent : Str) (a b c e : Nat) (ha : Scanner.isHexDigit a = true)
    (hb : Scanner.isHexDigit b = true) (hc : Scanner.isHexDigit c = true)
    (he : Scanner.isHexDigit e = true) : Copied pfx indent [92, 117, a, b, c, e] := by
  intro ps d dst more
  simp [indentLoop, indentStep, Scanner.run, inStr, Scanner.stateInString,
    Scanner.stateInStringEsc, Scanner.stateInStringEscHex, ha, hb, hc, he]

theorem isHexDigit_hex (n : Nat) (h : n < 16) : Scanner.isHexDigit (hex n) = true := by
  interval_cases n <;> decide

theorem Copied.escapeByte (pfx indent : Str) (b : Nat) (h : b < 0x80) :
    Copied pfx indent (escapeByte b) := by
  unfold CfnOutputs.escapeByte
  split
  · rename_i h1
    apply Copied.esc
    omega
  split
  · apply Copied.esc; simp
  split
  · apply Copied.esc; simp
  split
  · apply Copied.esc; simp
  split
  · apply Copied.esc; simp
  split
  · apply Copied.esc; simp
  · apply Copied.escU
    · decide
    · decide
    · exact isHexDigit_hex _ (by omega)
    · exact isHexDigit_hex _ (by omega)

theorem first_eq_invalid (b : Nat) (h : (0x80 ≤ b ∧ b < 0xC2) ∨ 0xF5 ≤ b) : first b = 0xF1 := by
  unfold first; split_ifs <;> first | rfl | omega

theorem first_eq_s1 (b : Nat) (h : 0xC2 ≤ b ∧ b < 0xE0) : first b = 0x02 := by
  unfold first; split_ifs <;> first | rfl | omega

theorem first_eq_s2 : first 0xE0 = 0x13 := by decide

theorem first_eq_s3 (b : Nat) (h : 0xE1 ≤ b ∧ b < 0xF0 ∧ b ≠ 0xED) : first b = 0x03 := by
  unfold first; split_ifs <;> first | rfl | omega

theorem first_eq_s4 : first 0xED = 0x23 := by decide

theorem first_eq_s5 : first 0xF0 = 0x34 := by decide

theorem first_eq_s6 (b : Nat) (h : 0xF1 ≤ b ∧ b < 0xF4) : first b = 0x04 := by
  unfold first; split_ifs <;> first | rfl | omega

theorem first_eq_s7 : first 0xF4 = 0x44 := by decide

theorem first_cases (b : Nat) (hb : 0x80 ≤ b) :
    first b = 0xF1 ∨
    (first b = 0x02 ∧ 0xC2 ≤ b ∧ b < 0xE0) ∨
    (first b = 0x13 ∧ b = 0xE0) ∨
    (first b = 0x03 ∧ 0xE1 ≤ b ∧ b < 0xF0 ∧ b ≠ 0xED) ∨
    (first b = 0x23 ∧ b = 0xED) ∨
    (first b = 0x34 ∧ b = 0xF0) ∨
    (first b = 0x04 ∧ 0xF1 ≤ b ∧ b < 0xF4) ∨
    (first b = 0x44 ∧ b = 0xF4) := by
  by_cases h1 : b < 0xC2
  · exact Or.inl (first_eq_invalid b (Or.inl ⟨hb, h1⟩))
  by_cases h2 : b < 0xE0
  · exact Or.inr (Or.inl ⟨first_eq_s1 b ⟨by omega, h2⟩, by omega, h2⟩)
  by_cases h3 : b = 0xE0
  · subst h3; exact Or.inr (Or.inr (Or.inl ⟨first_eq_s2, rfl⟩))
  by_cases h4 : b = 0xED
  · subst h4; exact Or.inr (Or.inr (Or.inr (Or.inr (Or.inl ⟨first_eq_s4, rfl⟩))))
  by_cases h5 : b < 0xF0
  · exact Or.inr (Or.inr (Or.inr (Or.inl ⟨first_eq_s3 b ⟨by omega, h5, h4⟩, by omega, h5, h4⟩)))
  by_cases h6 : b = 0xF0
  · subst h6; exact Or.inr (Or.inr (Or.inr (Or.inr (Or.inr (Or.inl ⟨first_eq_s5, rfl⟩)))))
  by_cases h7 : b < 0xF4
  · exact Or.inr (Or.inr (Or.inr (Or.inr (Or.inr (Or.inr (Or.inl
      ⟨first_eq_s6 b ⟨by omega, h7⟩, by omega, h7⟩))))))
  by_cases h8 : b = 0xF4
  · subst h8
    exact Or.inr (Or.inr (Or.inr (Or.inr (Or.inr (Or.inr (Or.inr ⟨first_eq_s7, rfl⟩))))))
  · exact Or.inl (first_eq_invalid b (Or.inr (by omega)))

theorem decode_short (b : Nat) (rest : Str) (x : Nat) (hf : first b = x) (hx : x < 0xF0)
    (hl : rest.length + 1 < x % 8) : DecodeRuneInString (b :: rest) = (RuneError, 1) := by
  have hx' : ¬ 0xF0 ≤ x := by omega
  cases rest <;> simp_all [DecodeRuneInString]

theorem decode_two (b s1 : Nat) (t : Str) (hf : first b = 0x02) :
    DecodeRuneInString (b :: s1 :: t) =
      if s1 < 0x80 ∨ 0xBF < s1 then (RuneError, 1) else ((b % 32) * 64 + s1 % 64, 2) := by
  simp [DecodeRuneInString, hf, acceptRanges]

theorem decode_three (b s1 s2 x lo hi : Nat) (t : Str) (hf : first b = x)
    (hx : x = 0x13 ∨ x = 0x03 ∨ x = 0x23) (ha : acceptRanges (x / 16) = (lo, hi)) :
    DecodeRuneInString (b :: s1 :: s2 :: t) =
      if s1 < lo ∨ hi < s1 then (RuneError, 1)
      else if s2 < 0x80 ∨ 0xBF < s2 then (RuneError, 1)
      else ((b % 16) * 4096 + (s1 % 64) * 64 + s2 % 64, 3) := by
  rcases hx with rfl | rfl | rfl <;> simp [DecodeRuneInString, hf, ha]

theorem decode_four (b s1 s2 s3 x lo hi : Nat) (t : Str) (hf : first b = x)
    (hx : x = 0x34 ∨ x = 0x04 ∨ x = 0x44) (ha : acceptRanges (x / 16) = (lo, hi)) :
    DecodeRuneInString (b :: s1 :: s2 :: s3 :: t) =
      if s1 < lo ∨ hi < s1 then (RuneError, 1)
      else if s2 < 0x80 ∨ 0xBF < s2 then (RuneError, 1)
      else if s3 < 0x80 ∨ 0xBF < s3 then (RuneError, 1)
      else ((b % 8) * 262144 + (s1 % 64) * 4096 + (s2 % 64) * 64 + s3 % 64, 4) := by
  rcases hx with rfl | rfl | rfl <;> simp [DecodeRuneInString, hf, ha]

theorem decode_ascii (b : Nat) (rest : Str) (hb : b < 0x80) :
    DecodeRuneInString (b :: rest) = (b, 1) := by
  have : first b = 0xF0 := by unfold first; simp [hb]
  simp [DecodeRuneInString, this]

theorem decode_invalid_first (b : Nat) (rest : Str) (h : first b = 0xF1) :
    DecodeRuneInString (b :: rest) = (RuneError, 1) := by
  simp [DecodeRuneInString, h]

/-- What `DecodeRuneInString` returns on a string that starts with a byte of `0x80` or
more: `(RuneError, 1)`, or a rune of two, three or four bytes in their ranges. -/
theorem decode_multibyte (b : Nat) (rest : Str) (hb : 0x80 ≤ b) :
    DecodeRuneInString (b :: rest) = (RuneError, 1) ∨
    (∃ s1 t, rest = s1 :: t ∧ 0x80 ≤ s1 ∧ s1 ≤ 0xBF ∧ 0xC2 ≤ b ∧ b ≤ 0xDF ∧
      DecodeRuneInString (b :: rest) = ((b % 32) * 64 + s1 % 64, 2)) ∨
    (∃ s1 s2 t, rest = s1 :: s2 :: t ∧ 0x80 ≤ s1 ∧ s1 ≤ 0xBF ∧ 0x80 ≤ s2 ∧ s2 ≤ 0xBF ∧
      0xE0 ≤ b ∧ b ≤ 0xEF ∧ (b = 0xE0 → 0xA0 ≤ s1) ∧ (b = 0xED → s1 ≤ 0x9F) ∧
      DecodeRuneInString (b :: rest) = ((b % 16) * 4096 + (s1 % 64) * 64 + s2 % 64, 3)) ∨
    (∃ s1 s2 s3 t, rest = s1 :: s2 :: s3 :: t ∧ 0x80 ≤ s1 ∧ s1 ≤ 0xBF ∧ 0x80 ≤ s2 ∧
      s2 ≤ 0xBF ∧ 0x80 ≤ s3 ∧ s3 ≤ 0xBF ∧ 0xF0 ≤ b ∧ b ≤ 0xF4 ∧ (b = 0xF0 → 0x90 ≤ s1) ∧
      (b = 0xF4 → s1 ≤ 0x8F) ∧
      DecodeRuneInString (b :: rest) =
        ((b % 8) * 262144 + (s1 % 64) * 4096 + (s2 % 64) * 64 + s3 % 64, 4)) := by
  have three : ∀ x lo hi, first b = x → (x = 0x13 ∨ x = 0x03 ∨ x = 0x23) →
      acceptRanges (x / 16) = (lo, hi) → 0x80 ≤ lo → hi ≤ 0xBF → 0xE0 ≤ b → b ≤ 0xEF →
      (b = 0xE0 → 0xA0 ≤ lo) → (b = 0xED → hi ≤ 0x9F) → x % 8 = 3 → x < 0xF0 →
      (DecodeRuneInString (b :: rest) = (RuneError, 1) ∨
        ∃ s1 s2 t, rest = s1 :: s2 :: t ∧ 0x80 ≤ s1 ∧ s1 ≤ 0xBF ∧ 0x80 ≤ s2 ∧ s2 ≤ 0xBF ∧
        0xE0 ≤ b ∧ b ≤ 0xEF ∧ (b = 0xE0 → 0xA0 ≤ s1) ∧ (b = 0xED → s1 ≤ 0x9F) ∧
        DecodeRuneInString (b :: rest) = ((b % 16) * 4096 + (s1 % 64) * 64 + s2 % 64, 3)) := by
    intro x lo hi hf hx ha hlo hhi hb1 hb2 he0 hed hsz hlt
    rcases rest with _ | ⟨s1, _ | ⟨s2, t⟩⟩
    · exact Or.inl (decode_short b [] x hf hlt (by simp [hsz]))
    · exact Or.inl (decode_short b [s1] x hf hlt (by simp [hsz]))
    · rw [decode_three b s1 s2 x lo hi t hf hx ha]
      by_cases h1 : s1 < lo ∨ hi < s1
      · simp [h1]
      · by_cases h2 : s2 < 0x80 ∨ 0xBF < s2
        · simp [h1, h2]
        · right
          refine ⟨s1, s2, t, rfl, by omega, by omega, by omega, by omega, hb1, hb2, ?_, ?_, ?_⟩
          · intro e; have := he0 e; omega
          · intro e; have := hed e; omega
          · simp [h1, h2]
  have four : ∀ x lo hi, first b = x → (x = 0x34 ∨ x = 0x04 ∨ x = 0x44) →
      acceptRanges (x / 16) = (lo, hi) → 0x80 ≤ lo → hi ≤ 0xBF → 0xF0 ≤ b → b ≤ 0xF4 →
      (b = 0xF0 → 0x90 ≤ lo) → (b = 0xF4 → hi ≤ 0x8F) → x % 8 = 4 → x < 0xF0 →
      (DecodeRuneInString (b :: rest) = (RuneError, 1) ∨
        ∃ s1 s2 s3 t, rest = s1 :: s2 :: s3 :: t ∧ 0x80 ≤ s1 ∧ s1 ≤ 0xBF ∧ 0x80 ≤ s2 ∧
        s2 ≤ 0xBF ∧ 0x80 ≤ s3 ∧ s3 ≤ 0xBF ∧ 0xF0 ≤ b ∧ b ≤ 0xF4 ∧ (b = 0xF0 → 0x90 ≤ s1) ∧
        (b = 0xF4 → s1 ≤ 0x8F) ∧
        DecodeRuneInString (b :: rest) =
          ((b % 8) * 262144 + (s1 % 64) * 4096 + (s2 % 64) * 64 + s3 % 64, 4)) := by
    intro x lo hi hf hx ha hlo hhi hb1 hb2 hf0 hf4 hsz hlt
    rcases rest with _ | ⟨s1, _ | ⟨s2, _ | ⟨s3, t⟩⟩⟩
    · exact Or.inl (decode_short b [] x hf hlt (by simp [hsz]))
    · exact Or.inl (decode_short b [s1] x hf hlt (by simp [hsz]))
    · exact Or.inl (decode_short b [s1, s2] x hf hlt (by simp [hsz]))
    · rw [decode_four b s1 s2 s3 x lo hi t hf hx ha]
      by_cases h1 : s1 < lo ∨ hi < s1
      · simp [h1]
      · by_cases h2 : s2 < 0x80 ∨ 0xBF < s2
        · simp [h1, h2]
        · by_cases h3 : s3 < 0x80 ∨ 0xBF < s3
          · simp [h1, h2, h3]
          · right
            refine ⟨s1, s2, s3, t, rfl, by omega, by omega, by omega, by omega, by omega,
              by omega, hb1, hb2, ?_, ?_, ?_⟩
            · intro e; have := hf0 e; omega
            · intro e; have := hf4 e; omega
            · simp [h1, h2, h3]
  rcases first_cases b hb with h | ⟨h, hr⟩ | ⟨h, hr⟩ | ⟨h, hr⟩ | ⟨h, hr⟩ | ⟨h, hr⟩ | ⟨h, hr⟩ | ⟨h, hr⟩
  · exact Or.inl (decode_invalid_first b rest h)
  · rcases rest with _ | ⟨s1, t⟩
    · exact Or.inl (decode_short b [] 2 h (by omega) (by simp))
    · rw [decode_two b s1 t h]
      by_cases h1 : s1 < 0x80 ∨ 0xBF < s1
      · simp [h1]
      · right; left
        exact ⟨s1, t, rfl, by omega, by omega, by omega, by omega, by simp [h1]⟩
  · rcases three 0x13 0xA0 0xBF h (by simp) (by decide) (by omega) (by omega) (by omega)
      (by omega) (by omega) (by omega) (by omega) (by omega) with h' | h'
    · exact Or.inl h'
    · exact Or.inr (Or.inr (Or.inl h'))
  · rcases three 0x03 0x80 0xBF h (by simp) (by decide) (by omega) (by omega) (by omega)
      (by omega) (by omega) (by omega) (by omega) (by omega) with h' | h'
    · exact Or.inl h'
    · exact Or.inr (Or.inr (Or.inl h'))
  · rcases three 0x23 0x80 0x9F h (by simp) (by decide) (by omega) (by omega) (by omega)
      (by omega) (by omega) (by omega) (by omega) (by omega) with h' | h'
    · exact Or.inl h'
    · exact Or.inr (Or.inr (Or.inl h'))
  · rcases four 0x34 0x90 0xBF h (by simp) (by decide) (by omega) (by omega) (by omega)
      (by omega) (by omega) (by omega) (by omega) (by omega) with h' | h'
    · exact Or.inl h'
    · exact Or.inr (Or.inr (Or.inr h'))
  · rcases four 0x04 0x80 0xBF h (by simp) (by decide) (by omega) (by omega) (by omega)
      (by omega) (by omega) (by omega) (by omega) (by omega) with h' | h'
    · exact Or.inl h'
    · exact Or.inr (Or.inr (Or.inr h'))
  · rcases four 0x44 0x80 0x8F h (by simp) (by decide) (by omega) (by omega) (by omega)
      (by omega) (by omega) (by omega) (by omega) (by omega) with h' | h'
    · exact Or.inl h'
    · exact Or.inr (Or.inr (Or.inr h'))

theorem decode_take (s : Str) : DecodeRuneInString (s.take UTFMax) = DecodeRuneInString s := by
  rcases s with _ | ⟨a, _ | ⟨b, _ | ⟨c, _ | ⟨d, t⟩⟩⟩⟩ <;> try rfl
  show DecodeRuneInString [a, b, c, d] = DecodeRuneInString (a :: b :: c :: d :: t)
  by_cases ha : a < 0x80
  · rw [decode_ascii a _ ha, decode_ascii a _ ha]
  · rcases first_cases a (by omega) with h | ⟨h, _⟩ | ⟨h, _⟩ | ⟨h, _⟩ | ⟨h, _⟩ | ⟨h, _⟩ |
      ⟨h, _⟩ | ⟨h, _⟩
    · rw [decode_invalid_first a _ h, decode_invalid_first a _ h]
    · rw [decode_two a b _ h, decode_two a b _ h]
    · rw [decode_three a b c _ _ _ _ h (by simp) rfl, decode_three a b c _ _ _ _ h (by simp) rfl]
    · rw [decode_three a b c _ _ _ _ h (by simp) rfl, decode_three a b c _ _ _ _ h (by simp) rfl]
    · rw [decode_three a b c _ _ _ _ h (by simp) rfl, decode_three a b c _ _ _ _ h (by simp) rfl]
    · rw [decode_four a b c d _ _ _ _ h (by simp) rfl, decode_four a b c d _ _ _ _ h (by simp) rfl]
    · rw [decode_four a b c d _ _ _ _ h (by simp) rfl, decode_four a b c d _ _ _ _ h (by simp) rfl]
    · rw [decode_four a b c d _ _ _ _ h (by simp) rfl, decode_four a b c d _ _ _ _ h (by simp) rfl]

/-- A decoded rune of more than one byte: its width, its bytes, and the bytes of the two
runes `appendString` escapes. -/
theorem decode_summary (b : Nat) (rest : Str) (hb : 0x80 ≤ b) :
    DecodeRuneInString (b :: rest) = (RuneError, 1) ∨
    (2 ≤ (DecodeRuneInString (b :: rest)).2 ∧
      (DecodeRuneInString (b :: rest)).2 ≤ rest.length + 1 ∧
      (∀ x ∈ (b :: rest).take (DecodeRuneInString (b :: rest)).2, 0x80 ≤ x) ∧
      ((DecodeRuneInString (b :: rest)).1 = 0x2028 →
        (b :: rest).take (DecodeRuneInString (b :: rest)).2 = [0xE2, 0x80, 0xA8]) ∧
      ((DecodeRuneInString (b :: rest)).1 = 0x2029 →
        (b :: rest).take (DecodeRuneInString (b :: rest)).2 = [0xE2, 0x80, 0xA9])) := by
  rcases decode_multibyte b rest hb with h | ⟨s1, t, rfl, h1, h2, h3, h4, h⟩ |
    ⟨s1, s2, t, rfl, h1, h2, h3, h4, h5, h6, h7, h8, h⟩ |
    ⟨s1, s2, s3, t, rfl, h1, h2, h3, h4, h5, h6, h7, h8, h9, h10, h⟩
  · exact Or.inl h
  · right
    rw [h]
    refine ⟨by simp, by simp, ?_, ?_, ?_⟩
    · intro x hx
      simp at hx
      rcases hx with rfl | rfl <;> omega
    · intro e; simp at e; omega
    · intro e; simp at e; omega
  · right
    rw [h]
    refine ⟨by simp, by simp, ?_, ?_, ?_⟩
    · intro x hx
      simp at hx
      rcases hx with rfl | rfl | rfl <;> omega
    · intro e
      simp only at e
      have : b = 0xE2 ∧ s1 = 0x80 ∧ s2 = 0xA8 := by omega
      simp [this]
    · intro e
      simp only at e
      have : b = 0xE2 ∧ s1 = 0x80 ∧ s2 = 0xA9 := by omega
      simp [this]
  · right
    rw [h]
    refine ⟨by simp, by simp, ?_, ?_, ?_⟩
    · intro x hx
      simp at hx
      rcases hx with rfl | rfl | rfl | rfl <;> omega
    · intro e
      simp only at e
      exfalso
      by_cases hb0 : b = 0xF0
      · have := h9 hb0; omega
      · omega
    · intro e
      simp only at e
      exfalso
      by_cases hb0 : b = 0xF0
      · have := h9 hb0; omega
      · omega

theorem htmlSafeSet_raw (b : Nat) (h : htmlSafeSet b = true) : 0x20 ≤ b ∧ b ≠ 34 ∧ b ≠ 92 := by
  simp [htmlSafeSet] at h
  omega

theorem appendStringLoop_copied (pfx indent : Str) (n : Nat) (src : Str) :
    Copied pfx indent (appendStringLoop n src) := by
  induction n generalizing src with
  | zero => exact Copied.nil pfx indent
  | succ n ih =>
    cases src with
    | nil => exact Copied.nil pfx indent
    | cons b rest =>
      simp only [appendStringLoop]
      split
      · rename_i hb
        split
        · rename_i hs
          obtain ⟨h1, h2, h3⟩ := htmlSafeSet_raw b hs
          exact Copied.append (Copied.raw pfx indent b h1 h2 h3) (ih rest)
        · exact Copied.append (Copied.escapeByte pfx indent b hb) (ih rest)
      · rename_i hb
        simp only [RuneSelf] at hb
        rw [decode_take]
        split
        · exact Copied.append (Copied.escU pfx indent _ _ _ _ (by decide) (by decide)
            (by decide) (by decide)) (ih rest)
        · rename_i hne
          have hsum := decode_summary b rest (by omega)
          rcases hsum with hsum | ⟨_, _, hraw, _, _⟩
          · rw [hsum] at hne; simp at hne
          · split
            · apply Copied.append _ (ih _)
              exact Copied.escU pfx indent _ _ _ _ (by decide) (by decide) (by decide)
                (isHexDigit_hex _ (Nat.mod_lt _ (by decide)))
            · exact Copied.append (Copied.raws pfx indent _ hraw) (ih _)
theorem appendString_eq (dst src : Str) : appendString dst src = dst ++ quote src := by
  simp [appendString, quote]

theorem quote_eq (src : Str) : quote src = 34 :: (appendStringLoop src.length src ++ [34]) := by
  simp [appendString, quote]

theorem encodeEntries_eq (isFirst : Bool) (sv : List (Str × Str)) (e : Str) :
    encodeEntries isFirst sv e = e ++ compactMembers isFirst sv := by
  induction sv generalizing isFirst e with
  | nil => simp [encodeEntries, compactMembers]
  | cons p sv ih =>
    obtain ⟨k, v⟩ := p
    simp only [encodeEntries, compactMembers, ih, appendString_eq]
    cases isFirst <;> simp

theorem marshalMap_eq (m : OutputMap) :
    marshalMap m = 123 :: (compactMembers true (sortedEntries m) ++ [125, 10]) := by
  simp [marshalMap, encodeEntries_eq]

theorem indent_close (ps : List ParseState) (d : Nat) (dst more : Str) :
    indentLoop [] [32, 32] (34 :: more) ⟨inStr ps, false, d, dst⟩ =
      indentLoop [] [32, 32] more ⟨atStep Step.stateEndValue ps, false, d, dst ++ [34]⟩ := by
  simp [indentLoop, indentStep, Scanner.run, inStr, atStep, Scanner.stateInString]

theorem indent_quote_body (ps : List ParseState) (d : Nat) (dst more src : Str) :
    indentLoop [] [32, 32] (appendStringLoop src.length src ++ [34] ++ more)
        ⟨inStr ps, false, d, dst ++ [34]⟩ =
      indentLoop [] [32, 32] more ⟨atStep Step.stateEndValue ps, false, d, dst ++ quote src⟩ := by
  rw [List.append_assoc, appendStringLoop_copied [] [32, 32] src.length src ps d, List.singleton_append,
    indent_close, quote_eq]
  simp

theorem indent_first_key (ps : List ParseState) (dst more src : Str) :
    indentLoop [] [32, 32] (quote src ++ more)
        ⟨atStep Step.stateBeginStringOrEmpty ps, true, 0, dst⟩ =
      indentLoop [] [32, 32] more
        ⟨atStep Step.stateEndValue ps, false, 1, dst ++ [10, 32, 32] ++ quote src⟩ := by
  have h := indent_quote_body ps 1 (dst ++ [10, 32, 32]) more src
  rw [← h, quote_eq]
  simp [indentLoop, indentStep, Scanner.run, inStr, atStep, Scanner.stateBeginStringOrEmpty,
    Scanner.stateBeginString, Scanner.isSpace, appendNewline, List.range_succ]

theorem indent_next_key (ps : List ParseState) (d : Nat) (dst more src : Str) :
    indentLoop [] [32, 32] (quote src ++ more) ⟨atStep Step.stateBeginString ps, false, d, dst⟩ =
      indentLoop [] [32, 32] more ⟨atStep Step.stateEndValue ps, false, d, dst ++ quote src⟩ := by
  have h := indent_quote_body ps d dst more src
  rw [← h, quote_eq]
  simp [indentLoop, indentStep, Scanner.run, inStr, atStep, Scanner.stateBeginString,
    Scanner.isSpace]

theorem indent_value (ps : List ParseState) (d : Nat) (dst more src : Str) :
    indentLoop [] [32, 32] (quote src ++ more) ⟨atStep Step.stateBeginValue ps, false, d, dst⟩ =
      indentLoop [] [32, 32] more ⟨atStep Step.stateEndValue ps, false, d, dst ++ quote src⟩ := by
  have h := indent_quote_body ps d dst more src
  rw [← h, quote_eq]
  simp [indentLoop, indentStep, Scanner.run, inStr, atStep, Scanner.stateBeginValue,
    Scanner.isSpace]

theorem indent_colon (below : List ParseState) (d : Nat) (dst more : Str) :
    indentLoop [] [32, 32] (58 :: more)
        ⟨atStep Step.stateEndValue (ParseState.parseObjectKey :: below), false, d, dst⟩ =
      indentLoop [] [32, 32] more
        ⟨atStep Step.stateBeginValue (ParseState.parseObjectValue :: below), false, d,
          dst ++ [58, 32]⟩ := by
  simp [indentLoop, indentStep, Scanner.run, atStep, Scanner.stateEndValue, Scanner.isSpace]

theorem indent_comma (below : List ParseState) (dst more : Str) :
    indentLoop [] [32, 32] (44 :: more)
        ⟨atStep Step.stateEndValue (ParseState.parseObjectValue :: below), false, 1, dst⟩ =
      indentLoop [] [32, 32] more
        ⟨atStep Step.stateBeginString (ParseState.parseObjectKey :: below), false, 1,
          dst ++ [44, 10, 32, 32]⟩ := by
  simp [indentLoop, indentStep, Scanner.run, atStep, Scanner.stateEndValue, Scanner.isSpace,
    appendNewline, List.range_succ]

theorem indent_end (dst : Str) :
    indentLoop [] [32, 32] [125, 10]
        ⟨atStep Step.stateEndValue [ParseState.parseObjectValue], false, 1, dst⟩ =
      ⟨⟨Step.stateEndTop, true, [], false⟩, false, 0, dst ++ [10, 125, 10]⟩ := by
  simp [indentLoop, indentStep, Scanner.run, atStep, Scanner.stateEndValue, Scanner.isSpace,
    appendNewline, Scanner.popParseState, Scanner.stateEndTop]

theorem indent_later (sv : List (Str × Str)) (dst : Str) :
    indentLoop [] [32, 32] (compactMembers false sv ++ [125, 10])
        ⟨atStep Step.stateEndValue [ParseState.parseObjectValue], false, 1, dst⟩ =
      ⟨⟨Step.stateEndTop, true, [], false⟩, false, 0, dst ++ laterMembers sv ++ [10, 125, 10]⟩ := by
  induction sv generalizing dst with
  | nil => simp [compactMembers, laterMembers, indent_end]
  | cons p sv ih =>
    obtain ⟨k, v⟩ := p
    simp only [compactMembers, Bool.false_eq_true, if_false, List.append_assoc,
      List.singleton_append, List.cons_append, List.nil_append]
    rw [indent_comma, indent_next_key, indent_colon, indent_value, ih]
    simp [laterMembers]

theorem renderJSON_entries (m : OutputMap) : renderJSON m = some (jsonEntries (sortedEntries m)) := by
  unfold renderJSON appendIndent
  rw [marshalMap_eq]
  generalize sortedEntries m = sv
  have hopen : ∀ more, indentLoop [] [32, 32] (123 :: more) ⟨Scanner.reset, false, 0, []⟩ =
      indentLoop [] [32, 32] more
        ⟨atStep Step.stateBeginStringOrEmpty [ParseState.parseObjectKey], true, 0, [123]⟩ := by
    intro more
    simp [indentLoop, indentStep, Scanner.run, Scanner.reset, atStep, Scanner.stateBeginValue,
      Scanner.isSpace, Scanner.pushParseState, maxNestingDepth]
  cases sv with
  | nil =>
    simp [compactMembers, jsonEntries, indentLoop, indentStep, Scanner.run, Scanner.reset,
      Scanner.stateBeginValue, Scanner.isSpace, Scanner.pushParseState, maxNestingDepth,
      Scanner.stateBeginStringOrEmpty, Scanner.stateEndValue, Scanner.popParseState,
      Scanner.stateEndTop, Scanner.eof]
  | cons p sv =>
    obtain ⟨k, v⟩ := p
    rw [hopen]
    simp only [compactMembers, if_true, List.nil_append, List.append_assoc,
      List.singleton_append, List.cons_append]
    rw [indent_first_key, indent_colon, indent_value, indent_later]
    simp [Scanner.eof, jsonEntries]

/-! ## Reading the JSON output back: lemmas -/

theorem prepend_prepend (a b : Str) (r : Option (Str × Str)) :
    prepend a (prepend b r) = prepend (a ++ b) r := by
  cases r <;> simp [prepend]

theorem prepend_some (a s r : Str) : prepend a (some (s, r)) = some (a ++ s, r) := rfl

theorem parseStringFrom_cons (pending : Option Nat) (c : Nat) (rest : Str) :
    parseStringFrom pending (c :: rest) =
      if c = 34 then some (unpaired pending, rest)
      else if c = 92 then
        match rest with
        | [] => none
        | e :: rest1 =>
          if e = 117 then
            match rest1 with
            | h1 :: h2 :: h3 :: h4 :: rest2 =>
              match hex4 h1 h2 h3 h4 with
              | none => none
              | some cp =>
                if 0xDC00 ≤ cp ∧ cp < 0xE000 then
                  match pending with
                  | some hi =>
                    prepend (utf8Encode (0x10000 + (hi - 0xD800) * 1024 + (cp - 0xDC00)))
                      (parseStringFrom none rest2)
                  | none => prepend (utf8Encode 0xFFFD) (parseStringFrom none rest2)
                else if 0xD800 ≤ cp ∧ cp < 0xDC00 then
                  prepend (unpaired pending) (parseStringFrom (some cp) rest2)
                else prepend (unpaired pending ++ utf8Encode cp) (parseStringFrom none rest2)
            | _ => none
          else
            match unescape e with
            | none => none
            | some x => prepend (unpaired pending ++ [x]) (parseStringFrom none rest1)
      else if c < 0x20 then none
      else prepend (unpaired pending ++ [c]) (parseStringFrom none rest) := by
  rw [parseStringFrom.eq_def]
  rfl

theorem parse_raw (c : Nat) (X : Str) (h1 : 0x20 ≤ c) (h2 : c ≠ 34) (h3 : c ≠ 92) :
    parseString (c :: X) = prepend [c] (parseString X) := by
  have : ¬ c < 32 := by omega
  simp [parseString, parseStringFrom_cons, h2, h3, this, unpaired]

theorem parse_raws (l X : Str) (h : ∀ c ∈ l, 0x80 ≤ c) :
    parseString (l ++ X) = prepend l (parseString X) := by
  induction l with
  | nil => cases hX : parseString X <;> simp [prepend, hX]
  | cons c l ih =>
    have hc := h c (List.mem_cons_self _ _)
    rw [List.cons_append, parse_raw c _ (by omega) (by omega) (by omega),
      ih (fun x hx => h x (List.mem_cons_of_mem _ hx)), prepend_prepend]
    rfl

theorem parse_esc (e x : Nat) (X : Str) (he : e ≠ 117) (hx : unescape e = some x) :
    parseString (92 :: e :: X) = prepend [x] (parseString X) := by
  simp [parseString, parseStringFrom_cons, he, hx, unpaired]

theorem parse_escU (a b c d cp : Nat) (X : Str) (h : hex4 a b c d = some cp)
    (hcp : cp < 0xD800 ∨ 0xE000 ≤ cp) :
    parseString (92 :: 117 :: a :: b :: c :: d :: X) = prepend (utf8Encode cp) (parseString X) := by
  have h1 : ¬ (0xDC00 ≤ cp ∧ cp < 0xE000) := by omega
  have h2 : ¬ (0xD800 ≤ cp ∧ cp < 0xDC00) := by omega
  simp [parseString, parseStringFrom_cons, h, h1, h2, unpaired]

theorem hexVal_hex (n : Nat) (h : n < 16) : hexVal (hex n) = some n := by
  interval_cases n <;> decide

theorem hex4_byte (b : Nat) (h : b < 0x80) : hex4 48 48 (hex (b / 16)) (hex (b % 16)) = some b := by
  have h0 : hexVal 48 = some 0 := by decide
  simp only [hex4, h0, hexVal_hex (b / 16) (by omega), hexVal_hex (b % 16) (by omega)]
  congr 1
  omega

theorem parse_escapeByte (b : Nat) (X : Str) (h : b < 0x80) :
    parseString (escapeByte b ++ X) = prepend [b] (parseString X) := by
  unfold escapeByte
  split
  · rename_i h1
    rcases h1 with rfl | rfl <;> exact parse_esc _ _ X (by decide) (by decide)
  split
  · rename_i h1; subst h1; exact parse_esc _ _ X (by decide) (by decide)
  split
  · rename_i h1; subst h1; exact parse_esc _ _ X (by decide) (by decide)
  split
  · rename_i h1; subst h1; exact parse_esc _ _ X (by decide) (by decide)
  split
  · rename_i h1; subst h1; exact parse_esc _ _ X (by decide) (by decide)
  split
  · rename_i h1; subst h1; exact parse_esc _ _ X (by decide) (by decide)
  · have := parse_escU 48 48 (hex (b / 16)) (hex (b % 16)) b X (hex4_byte b h) (by omega)
    simp only [utf8Encode, h, if_true] at this
    exact this

theorem parse_appendStringLoop (n : Nat) (src X : Str) :
    parseString (appendStringLoop n src ++ 34 :: X) = some (coerceLoop n src, X) := by
  induction n generalizing src with
  | zero => simp [appendStringLoop, coerceLoop, parseString, parseStringFrom_cons, unpaired]
  | succ n ih =>
    cases src with
    | nil => simp [appendStringLoop, coerceLoop, parseString, parseStringFrom_cons, unpaired]
    | cons b rest =>
      simp only [appendStringLoop, coerceLoop]
      split
      · rename_i hb
        simp only [RuneSelf] at hb
        have hd := decode_ascii b rest hb
        have hne : ¬ (b = RuneError ∧ True) := by
          simp [RuneError]; omega
        simp only [hd, hne, if_false, List.take_succ_cons, List.take_zero, List.drop_succ_cons,
          List.drop_zero]
        split
        · rename_i hs
          obtain ⟨h1, h2, h3⟩ := htmlSafeSet_raw b hs
          rw [List.cons_append, parse_raw b _ h1 h2 h3, ih rest]
          rfl
        · rw [List.append_assoc, parse_escapeByte b _ hb, ih rest]
          rfl
      · rename_i hb
        simp only [RuneSelf] at hb
        rw [decode_take]
        split
        · rw [List.append_assoc]
          have := parse_escU 102 102 102 100 0xFFFD (appendStringLoop n rest ++ 34 :: X)
            (by decide) (by omega)
          rw [show ([92, 117, 102, 102, 102, 100] : Str) ++ (appendStringLoop n rest ++ 34 :: X) =
            92 :: 117 :: 102 :: 102 :: 102 :: 100 :: (appendStringLoop n rest ++ 34 :: X) from rfl,
            this, ih rest]
          rfl
        · rename_i hne
          rcases decode_summary b rest (by omega) with hsum | ⟨_, _, hraw, h28, h29⟩
          · rw [hsum] at hne; simp at hne
          · split
            · rename_i hsep
              rw [List.append_assoc]
              rcases hsep with hsep | hsep
              · rw [h28 hsep, hsep]
                have := parse_escU 50 48 50 56 0x2028
                  (appendStringLoop n (List.drop (DecodeRuneInString (b :: rest)).2 (b :: rest))
                    ++ 34 :: X) (by decide) (by omega)
                rw [show hex (0x2028 % 16) = 56 from by decide]
                rw [show ([92, 117, 50, 48, 50, 56] : Str) ++ (appendStringLoop n
                  (List.drop (DecodeRuneInString (b :: rest)).2 (b :: rest)) ++ 34 :: X) =
                  92 :: 117 :: 50 :: 48 :: 50 :: 56 :: (appendStringLoop n
                  (List.drop (DecodeRuneInString (b :: rest)).2 (b :: rest)) ++ 34 :: X) from rfl,
                  this, ih]
                rfl
              · rw [h29 hsep, hsep]
                have := parse_escU 50 48 50 57 0x2029
                  (appendStringLoop n (List.drop (DecodeRuneInString (b :: rest)).2 (b :: rest))
                    ++ 34 :: X) (by decide) (by omega)
                rw [show hex (0x2029 % 16) = 57 from by decide]
                rw [show ([92, 117, 50, 48, 50, 57] : Str) ++ (appendStringLoop n
                  (List.drop (DecodeRuneInString (b :: rest)).2 (b :: rest)) ++ 34 :: X) =
                  92 :: 117 :: 50 :: 48 :: 50 :: 57 :: (appendStringLoop n
                  (List.drop (DecodeRuneInString (b :: rest)).2 (b :: rest)) ++ 34 :: X) from rfl,
                  this, ih]
                rfl
            · rw [List.append_assoc, parse_raws _ _ hraw, ih]
              rfl

theorem coerceLoop_valid (n : Nat) (src : Str) (hv : validLoop n src = true)
    (hn : src.length ≤ n) : coerceLoop n src = src := by
  induction n generalizing src with
  | zero =>
    have : src = [] := List.length_eq_zero.mp (by omega)
    subst this; rfl
  | succ n ih =>
    cases src with
    | nil => rfl
    | cons b rest =>
      simp only [validLoop, coerceLoop] at hv ⊢
      split at hv
      · exact absurd hv (by simp)
      · rename_i hne
        simp only [hne, if_false]
        have hsz : 1 ≤ (DecodeRuneInString (b :: rest)).2 := by
          by_cases hb : b < 0x80
          · rw [decode_ascii b rest hb]
          · rcases decode_summary b rest (by omega) with hsum | ⟨h2, _⟩
            · rw [hsum]
            · omega
        rw [ih _ hv (by simp only [List.length_drop, List.length_cons] at hn ⊢; omega)]
        exact List.take_append_drop _ _

theorem parse_quote (s X : Str) : parseString ((quote s).tail ++ X) = some (coerce s, X) := by
  rw [quote_eq]
  simp only [List.tail_cons, List.append_assoc, List.singleton_append]
  exact parse_appendStringLoop s.length s X

theorem coerce_valid (s : Str) (h : ValidString s = true) : coerce s = s :=
  coerceLoop_valid s.length s h (Nat.le_refl _)


theorem quote_cons (s : Str) : quote s = 34 :: (quote s).tail := by
  rw [quote_eq]; rfl

theorem laterMembers_cons (k v : Str) (sv : List (Str × Str)) :
    laterMembers ((k, v) :: sv) =
      44 :: 10 :: 32 :: 32 :: 34 :: ((quote k).tail ++
        (58 :: 32 :: 34 :: ((quote v).tail ++ laterMembers sv))) := by
  simp only [laterMembers, List.map_cons, List.flatten_cons]
  conv_lhs => rw [quote_cons k, quote_cons v]
  simp

theorem skipWS_token (c : Nat) (X : Str) (h : c ≠ 32 ∧ c ≠ 9 ∧ c ≠ 10 ∧ c ≠ 13) :
    skipWS (c :: X) = c :: X := by
  simp [skipWS, h]

theorem parseMembers_member (fuel : Nat) (k v X : Str) (acc : OutputMap) :
    parseMembers (fuel + 1)
        (10 :: 32 :: 32 :: 34 :: ((quote k).tail ++ (58 :: 32 :: 34 :: ((quote v).tail ++ X)))) acc =
      match skipWS X with
      | 44 :: r6 => parseMembers fuel r6 (acc.set (coerce k) (coerce v))
      | 125 :: r6 => some (acc.set (coerce k) (coerce v), r6)
      | _ => none := by
  rw [parseMembers]
  simp [skipWS, parse_quote]

theorem parseMembers_entries (sv : List (Str × Str)) (fuel : Nat) (k v : Str) (acc : OutputMap)
    (hf : sv.length < fuel) :
    parseMembers fuel
        (10 :: 32 :: 32 :: 34 :: ((quote k).tail ++
          (58 :: 32 :: 34 :: ((quote v).tail ++ (laterMembers sv ++ [10, 125, 10]))))) acc =
      some (readBack sv (acc.set (coerce k) (coerce v)), [10]) := by
  induction sv generalizing fuel k v acc with
  | nil =>
    obtain ⟨f, rfl⟩ : ∃ f, fuel = f + 1 := ⟨fuel - 1, by omega⟩
    rw [parseMembers_member]
    simp [laterMembers, skipWS, readBack]
  | cons p sv ih =>
    obtain ⟨k', v'⟩ := p
    obtain ⟨f, rfl⟩ : ∃ f, fuel = f + 1 := ⟨fuel - 1, by omega⟩
    rw [parseMembers_member, laterMembers_cons]
    simp only [List.cons_append, List.append_assoc]
    rw [skipWS_token 44 _ (by decide)]
    simp only []
    rw [ih f k' v' _ (by simpa using hf)]
    rfl

theorem length_laterMembers (sv : List (Str × Str)) : sv.length ≤ (laterMembers sv).length := by
  induction sv with
  | nil => simp
  | cons p sv ih =>
    obtain ⟨k, v⟩ := p
    rw [laterMembers_cons]
    simp only [List.length_cons, List.length_append]
    omega

theorem parseJSON_entries (sv : List (Str × Str)) :
    parseJSON (jsonEntries sv) = some (readBack sv []) := by
  cases sv with
  | nil => simp [jsonEntries, parseJSON, skipWS, readBack]
  | cons p sv =>
    obtain ⟨k, v⟩ := p
    have hshape : jsonEntries ((k, v) :: sv) =
        123 :: 10 :: 32 :: 32 :: 34 :: ((quote k).tail ++
          (58 :: 32 :: 34 :: ((quote v).tail ++ (laterMembers sv ++ [10, 125, 10])))) := by
      simp only [jsonEntries]
      conv_lhs => rw [quote_cons k, quote_cons v]
      simp
    have hlen : sv.length < (jsonEntries ((k, v) :: sv)).length := by
      rw [hshape]
      have := length_laterMembers sv
      simp only [List.length_cons, List.length_append]
      omega
    unfold parseJSON
    generalize (jsonEntries ((k, v) :: sv)).length = n at hlen ⊢
    have hm := parseMembers_entries sv n k v [] hlen
    rw [hshape, skipWS_token 123 _ (by decide)]
    simp only [skipWS]
    simp [hm, skipWS, readBack]


theorem set_of_not_mem (m : OutputMap) (k v : Str) (h : k ∉ m.map Prod.fst) :
    m.set k v = m ++ [(k, v)] := by
  induction m with
  | nil => rfl
  | cons p rest ih =>
    obtain ⟨a, b⟩ := p
    simp only [List.map_cons, List.mem_cons, not_or] at h
    have : ¬ a = k := fun e => h.1 e.symm
    simp [OutputMap.set, this, ih h.2]

theorem foldl_set_append (sv : List (Str × Str)) (acc : OutputMap)
    (h : ((acc ++ sv).map Prod.fst).Nodup) :
    sv.foldl (fun a p => a.set p.1 p.2) acc = acc ++ sv := by
  induction sv generalizing acc with
  | nil => simp
  | cons p sv ih =>
    obtain ⟨k, v⟩ := p
    have hk : k ∉ acc.map Prod.fst := by
      intro hk
      rw [List.map_append, List.nodup_append] at h
      exact h.2.2 hk (by simp)
    simp only [List.foldl_cons, set_of_not_mem acc k v hk]
    rw [ih (acc ++ [(k, v)]) (by simpa using h)]
    simp

theorem readBack_valid (sv : List (Str × Str)) (acc : OutputMap)
    (hv : ∀ p ∈ sv, ValidString p.1 = true ∧ ValidString p.2 = true) :
    readBack sv acc = sv.foldl (fun a p => a.set p.1 p.2) acc := by
  unfold readBack
  induction sv generalizing acc with
  | nil => rfl
  | cons p sv ih =>
    have hp := hv p (List.mem_cons_self _ _)
    simp only [List.foldl_cons, coerce_valid _ hp.1, coerce_valid _ hp.2]
    exact ih _ (fun q hq => hv q (List.mem_cons_of_mem _ hq))

theorem sortedEntries_WF (m : OutputMap) (h : m.WF) : OutputMap.WF (sortedEntries m) := by
  unfold OutputMap.WF at *
  exact ((sortedEntries_perm m).map Prod.fst).nodup_iff.mpr h

theorem intercalate_cons (sep x : Str) (xs : List Str) :
    List.intercalate sep (x :: xs) = x ++ (xs.map fun y => sep ++ y).flatten := by
  induction xs generalizing x with
  | nil => simp [List.intercalate]
  | cons y ys ih =>
    have := ih y
    simp only [List.intercalate] at this ⊢
    simp [List.intersperse, this]

theorem jsonEntries_eq_jsonText (m : OutputMap) (ks : List Str) :
    jsonEntries (ks.map fun k => (k, m.get k)) = jsonText m ks := by
  cases ks with
  | nil => rfl
  | cons k ks =>
    simp only [List.map_cons, jsonEntries, jsonText, intercalate_cons, laterMembers, jsonMember,
      List.map_map]
    simp [Function.comp_def, jsonMember]

theorem renderJSON_eq (m : OutputMap) (h : m.WF) : renderJSON m = some (jsonText m (keys m)) := by
  rw [renderJSON_entries, sortedEntries_eq m h, jsonEntries_eq_jsonText]


/-! ## The JSON output (C5, C6) -/

/-- C6.  JSON rendering never fails and writes a single object and a final newline,
indented with two spaces: `{}` for the empty map; otherwise `{`, one member on a line of
its own for each key of the strictly ascending key list, each member being two spaces,
the key as a string literal, a colon and a space, and the value as a string literal,
with commas between the members, then `}`.  Nothing wraps the object and there is no
other member.  A string literal is the escaped text between two double quotes, and a
JSON reader reads it back as a string, whatever the text looks like. -/
theorem renderJSON_sorted_object (m : OutputMap) (h : m.WF) :
    render true none m = (jsonText m (keys m), none) ∧
    (keys m).Pairwise (fun a b => strLess a b = true) ∧
    (∀ k, k ∈ keys m ↔ ∃ v, (k, v) ∈ m) ∧
    (keys m).length = m.length ∧
    (∀ k v, (k, v) ∈ m → m.get k = v) ∧
    (∀ s, quote s = [34] ++ appendStringLoop s.length s ++ [34] ∧
      ∀ X, parseString (appendStringLoop s.length s ++ [34] ++ X) = some (coerce s, X)) := by
  refine ⟨?_, sortStrings_strict (m.map Prod.fst) h, mem_keys_iff m, ?_, get_of_mem m h, ?_⟩
  · simp [render, renderJSON_eq m h]
  · simpa using (keys_perm m).length_eq
  · intro s
    refine ⟨by simp [quote, appendString], ?_⟩
    intro X
    simpa using parse_appendStringLoop s.length s X

/-- C6, at the map `{"B":"2","A":"1"}`: key `A` comes before key `B`, and the values are
string literals; so is the value `true` of the map `{"t":"true"}`. -/
theorem renderJSON_sorted_object_witness :
    render true none [(ascii "B", ascii "2"), (ascii "A", ascii "1")] =
      (jsonText [(ascii "B", ascii "2"), (ascii "A", ascii "1")] [ascii "A", ascii "B"], none) ∧
    jsonText [(ascii "B", ascii "2"), (ascii "A", ascii "1")] [ascii "A", ascii "B"] =
      ascii "\x7b\n  \"A\": \"1\",\n  \"B\": \"2\"\n\x7d\n" ∧
    render true none [(ascii "t", ascii "true")] =
      (ascii "\x7b\n  \"t\": \"true\"\n\x7d\n", none) :=
  ⟨(renderJSON_sorted_object [(ascii "B", ascii "2"), (ascii "A", ascii "1")]
      (by decide)).1.trans (by decide),
    by decide, by decide⟩

/-- C5 as stated fails: the key `"\xff"` is not valid UTF-8; the encoder writes it as
the escape of U+FFFD, and the map read back has the key U+FFFD instead. -/
theorem json_roundtrip_invalid_utf8_counterexample :
    OutputMap.WF [([0xFF], ascii "1")] ∧
    render true none [([0xFF], ascii "1")] = (ascii "\x7b\n  \"\\ufffd\": \"1\"\n\x7d\n", none) ∧
    parseJSON (ascii "\x7b\n  \"\\ufffd\": \"1\"\n\x7d\n") = some [([0xEF, 0xBF, 0xBD], ascii "1")] ∧
    OutputMap.lookup [([0xEF, 0xBF, 0xBD], ascii "1")] [0xFF] = none ∧
    OutputMap.lookup [([0xFF], ascii "1")] [0xFF] = some (ascii "1") := by
  refine ⟨by decide, by decide, by decide, by decide, by decide⟩

/-- C5, amended.  JSON rendering of a map always succeeds and its output reads back as
a JSON object of strings; when every key and value of the map is valid UTF-8, the map
read back is equal to the original: the same entries, hence the same key set and the
same value for every key. -/
theorem renderJSON_roundtrip (m : OutputMap) :
    (∃ b, render true none m = (b, none) ∧ ∃ m', parseJSON b = some m') ∧
    (m.WF → (∀ p ∈ m, ValidString p.1 = true ∧ ValidString p.2 = true) →
      ∃ b, render true none m = (b, none) ∧
        ∃ m', parseJSON b = some m' ∧ OutputMap.WF m' ∧ m'.Perm m ∧
          (∀ k, m'.lookup k = m.lookup k) ∧ ∀ k v, (k, v) ∈ m' ↔ (k, v) ∈ m) := by
  have hrender : render true none m = (jsonEntries (sortedEntries m), none) := by
    simp [render, renderJSON_entries]
  refine ⟨⟨_, hrender, _, parseJSON_entries _⟩, ?_⟩
  intro h hv
  have hs := sortedEntries_WF m h
  have hp := sortedEntries_perm m
  have hread : readBack (sortedEntries m) [] = sortedEntries m := by
    rw [readBack_valid _ _ (fun p hp' => hv p (hp.mem_iff.mp hp')),
      foldl_set_append _ _ (by simpa using hs)]
    simp
  refine ⟨_, hrender, sortedEntries m, ?_, hs, hp, ?_, fun k v => hp.mem_iff⟩
  · rw [parseJSON_entries, hread]
  · exact lookup_congr _ _ hs h (fun k v => hp.mem_iff)

/-- C5, amended, at the map `{"B":"2","A":"1"}`. -/
theorem renderJSON_roundtrip_witness :
    ∃ b, render true none [(ascii "B", ascii "2"), (ascii "A", ascii "1")] = (b, none) ∧
      ∃ m', parseJSON b = some m' ∧ OutputMap.WF m' ∧
        m'.Perm [(ascii "B", ascii "2"), (ascii "A", ascii "1")] ∧
        (∀ k, m'.lookup k =
          OutputMap.lookup [(ascii "B", ascii "2"), (ascii "A", ascii "1")] k) ∧
        ∀ k v, (k, v) ∈ m' ↔ (k, v) ∈ [(ascii "B", ascii "2"), (ascii "A", ascii "1")] :=
  (renderJSON_roundtrip [(ascii "B", ascii "2"), (ascii "A", ascii "1")]).2
    (by decide) (by decide)

end CfnOutputs
